import Mathlib

/-!
# Verification of the command-line calculator core

Shallow embedding of the calculator's core (lexer, parser, evaluator,
constants registry, precision context and symbolic simplifier) from the C
sources under `src/`, together with theorems settling the specification
claims.

Modelling conventions:
* MPFR arbitrary-precision floats are idealised as exact rationals (`ℚ`).
  Rounding a value to the global precision is modelled as the identity;
  every other aspect of the numeric code (division-by-zero handling,
  comparison results, the `2^-(precision+10)` zero-snapping threshold,
  integer-ness tests, the `%.0Rf` integer printing used by the simplifier's
  constant folds, `mpfr_get_ui` clamping) is translated explicitly.
* Transcendental functions (`mpfr_sin`, `mpfr_pow`, the constant computation
  routines, ...) are external library calls, not code of this repository;
  they enter the embedding as oracle parameters, while the repository's own
  domain checks, arity checks and error handling around them are translated
  faithfully.
* C strings are Lean `String`s / `List Char`; the C `int` tokens of the
  enums keep their numeric enum indices where the code does arithmetic on
  them (`node_compare`).
* The checked-in sources are mid-refactor: `function_table.c` and
  `parser.c` still name per-constant token identifiers (`TOKEN_PI`, ...)
  that `tokens.h` has replaced by the single `TOKEN_CONSTANT` carrying the
  constant's name, which is what `lexer.c` (line 263) and
  `should_insert_multiplication` expect.  The embedding follows
  `tokens.h`/`tokens.c`/`lexer.c`: a constant lexes to one constant token
  carrying its name, and the parser's constant case produces a
  `Constant name` node.
-/

set_option maxRecDepth 20000

/- Batteries marks the `Rat` arithmetic operations `@[irreducible]`, which
would block evaluating the embedding on concrete inputs; re-expose them. -/
unseal Rat.add Rat.mul Rat.inv Rat.sub

namespace CalcCore

/-- Binary operators, from the `TokenType` enum in `src/lexer/tokens.h`. -/
inductive BinOp : Type
  | plus | minus | star | slash | caret
  | beq | bneq | blt | blte | bgt | bgte
deriving DecidableEq, Repr

/-- Unary operators (`TOKEN_PLUS` / `TOKEN_MINUS` used prefix). -/
inductive UnOp : Type
  | uplus | uminus
deriving DecidableEq, Repr

/-- The named functions of the function table (`TOKEN_SIN` .. `TOKEN_POW`). -/
inductive Func : Type
  | fsin | fcos | ftan | fasin | facos | fatan | fatan2
  | fsinh | fcosh | ftanh | fasinh | facosh | fatanh
  | fsqrt | flog | flog10 | fexp | fabs | ffloor | fceil | fpow
deriving DecidableEq, Repr

/-- `ASTNode` from `src/parser/ast.h`.  Constructors are listed in the order
of the `NodeType` enum (`NODE_NUMBER`, `NODE_BINOP`, `NODE_UNARY`,
`NODE_FUNCTION`, `NODE_CONSTANT`); `node_compare` relies on that order.
The mpfr payload of a number node is idealised as an exact rational.
A `NODE_FUNCTION` node owns an argument array whose length is the
function's arity, which is 1 or 2 throughout this code base
(`evaluator.c`: `mpfr_t args[2]; // Max 2 args for current functions`);
the array is modelled by the two constructors `call1` and `call2`, whose
implicit `arg_count` is 1 resp. 2. -/
inductive AST : Type
  | num (value : ℚ) (isInt : Bool)
  | binop (op : BinOp) (left right : AST)
  | unary (op : UnOp) (operand : AST)
  | call1 (fn : Func) (a : AST)
  | call2 (fn : Func) (a b : AST)
  | constant (name : String)
deriving DecidableEq, Repr

namespace AST

/-- `a->type` as the numeric value of the `NodeType` enum. -/
def typeRank : AST → Int
  | .num _ _ => 0
  | .binop _ _ _ => 1
  | .unary _ _ => 2
  | .call1 _ _ => 3
  | .call2 _ _ _ => 3
  | .constant _ => 4

/-- The node's `function.arg_count` (function nodes only). -/
def argCount : AST → ℕ
  | .call1 _ _ => 1
  | .call2 _ _ _ => 2
  | _ => 0

end AST

/-- Numeric value of a binary operator in the `TokenType` enum
(`TOKEN_PLUS` = 2 ... `TOKEN_GTE` = 14); `node_compare` subtracts these. -/
def BinOp.tokenIndex : BinOp → Int
  | .plus => 2 | .minus => 3 | .star => 4 | .slash => 5 | .caret => 8
  | .beq => 9 | .bneq => 10 | .blt => 11 | .blte => 12 | .bgt => 13
  | .bgte => 14

/-- Numeric value of a unary operator in the `TokenType` enum. -/
def UnOp.tokenIndex : UnOp → Int
  | .uplus => 2 | .uminus => 3

/-- Numeric value of a function token in the `TokenType` enum
(`TOKEN_SIN` = 16 ... `TOKEN_POW` = 36). -/
def Func.tokenIndex : Func → Int
  | .fsin => 16 | .fcos => 17 | .ftan => 18 | .fasin => 19 | .facos => 20
  | .fatan => 21 | .fatan2 => 22 | .fsinh => 23 | .fcosh => 24
  | .ftanh => 25 | .fasinh => 26 | .facosh => 27 | .fatanh => 28
  | .fsqrt => 29 | .flog => 30 | .flog10 => 31 | .fexp => 32 | .fabs => 33
  | .ffloor => 34 | .fceil => 35 | .fpow => 36

/-- Sign-only view of `mpfr_cmp` on exact values. -/
def qcmp (a b : ℚ) : Int :=
  if a < b then -1 else if b < a then 1 else 0

/-- Sign-only view of C `strcmp` (lexicographic byte order; our names are
ASCII, where Lean's string order agrees with byte order). -/
def strcmpInt (a b : String) : Int :=
  if a < b then -1 else if b < a then 1 else 0

/-- `node_compare` from `src/core/symbolic.c`: total order used for
canonical operand ordering.  Node kind first (`a->type - b->type`), then
the kind-specific comparison: numeric value, constant name, function
identity / argument count / arguments in order, operator identity then
children.  Only the sign of the result is ever used; the C function
returns enum-index differences, which we reproduce. -/
def node_compare : AST → AST → Int
  | a, b =>
    if a.typeRank ≠ b.typeRank then a.typeRank - b.typeRank
    else match a, b with
      | .num v _, .num w _ => qcmp v w
      | .constant n, .constant m => strcmpInt n m
      | .call1 f x, .call1 g y =>
        if f.tokenIndex ≠ g.tokenIndex then f.tokenIndex - g.tokenIndex
        else node_compare x y
      | .call2 f x1 x2, .call2 g y1 y2 =>
        if f.tokenIndex ≠ g.tokenIndex then f.tokenIndex - g.tokenIndex
        else
          let c := node_compare x1 y1
          if c ≠ 0 then c else node_compare x2 y2
      | .call1 f _, .call2 g _ _ =>
        if f.tokenIndex ≠ g.tokenIndex then f.tokenIndex - g.tokenIndex
        else -1
      | .call2 f _ _, .call1 g _ =>
        if f.tokenIndex ≠ g.tokenIndex then f.tokenIndex - g.tokenIndex
        else 1
      | .binop op l r, .binop op2 l2 r2 =>
        if op.tokenIndex ≠ op2.tokenIndex then op.tokenIndex - op2.tokenIndex
        else
          let leftCmp := node_compare l l2
          if leftCmp ≠ 0 then leftCmp else node_compare r r2
      | .unary op x, .unary op2 y =>
        if op.tokenIndex ≠ op2.tokenIndex then op.tokenIndex - op2.tokenIndex
        else node_compare x y
      | _, _ => 0

/-- `symbolic_equals` from `src/core/symbolic.c`: structural equality
(number nodes compare value and integer flag; function nodes compare
identity, argument count and arguments). -/
def symbolic_equals : AST → AST → Bool
  | .num v bi, .num w bj => v = w && bi = bj
  | .constant n, .constant m => n = m
  | .binop op l r, .binop op2 l2 r2 =>
    op = op2 && symbolic_equals l l2 && symbolic_equals r r2
  | .unary op x, .unary op2 y => op = op2 && symbolic_equals x y
  | .call1 f x, .call1 g y => f = g && symbolic_equals x y
  | .call2 f x1 x2, .call2 g y1 y2 =>
    f = g && symbolic_equals x1 y1 && symbolic_equals x2 y2
  | _, _ => false

/-- `symbolic_is_zero`: a number node whose value is zero (flag ignored). -/
def symbolic_is_zero : AST → Bool
  | .num v _ => v = 0
  | _ => false

/-- `symbolic_is_one`: a number node whose value compares equal to 1. -/
def symbolic_is_one : AST → Bool
  | .num v _ => v = 1
  | _ => false

/-- `symbolic_is_integer`: integer-flagged number node with integral value. -/
def symbolic_is_integer : AST → Bool
  | .num v bi => bi && v.den = 1
  | _ => false

/-- `symbolic_clone` from `src/core/symbolic.c`: a deep copy.  On pure
trees a deep copy is the tree itself. -/
def symbolic_clone (t : AST) : AST := t

/-- `matches_constant` from `src/core/symbolic.c`. -/
def matches_constant : AST → String → Bool
  | .constant n, s => n = s
  | _, _ => false

/-- `is_commutative` from `src/core/symbolic.c`. -/
def is_commutative : BinOp → Bool
  | .plus => true
  | .star => true
  | _ => false

/-- `symbolic_equals` decides structural equality of trees. -/
theorem symbolic_equals_true_iff :
    ∀ a b : AST, symbolic_equals a b = true ↔ a = b := by
  intro a
  induction a with
  | num v bi => intro b; cases b <;> simp [symbolic_equals]
  | constant n => intro b; cases b <;> simp [symbolic_equals]
  | binop op l r ihl ihr =>
    intro b
    cases b <;> simp [symbolic_equals, Bool.and_eq_true, ihl, ihr, and_assoc]
  | unary op x ihx =>
    intro b
    cases b <;> simp [symbolic_equals, Bool.and_eq_true, ihx]
  | call1 f x ihx =>
    intro b
    cases b <;> simp [symbolic_equals, Bool.and_eq_true, ihx]
  | call2 f x1 x2 ih1 ih2 =>
    intro b
    cases b <;> simp [symbolic_equals, Bool.and_eq_true, ih1, ih2, and_assoc]

/-! ## Lexer (`src/lexer/tokens.h`, `src/lexer/function_table.c`,
`src/lexer/lexer.c`) -/

/-- `Token` from `src/lexer/tokens.h`.  Number tokens carry the preserved
literal substring (`number_string`); the separate `int_value`/`float_value`
payloads are not modelled because the parser always uses the string (the
fallback for a missing string is unreachable from this lexer). -/
inductive Token : Type
  | tint (numStr : String)
  | tfloat (numStr : String)
  | tplus | tminus | tstar | tslash | tlparen | trparen | tcaret
  | teq | tneq | tlt | tlte | tgt | tgte | tcomma
  | tfunc (f : Func)
  | tconstant (name : String)
  | tidentifier (name : String)
  | teof
  | tinvalid
deriving DecidableEq, Repr

/-- `token_is_function`: `TOKEN_SIN <= type <= TOKEN_POW`. -/
def token_is_function : Token → Bool
  | .tfunc _ => true
  | _ => false

/-- `token_is_constant`: `type == TOKEN_CONSTANT`. -/
def token_is_constant : Token → Bool
  | .tconstant _ => true
  | _ => false

/-- `token_is_unary_op`: `TOKEN_PLUS` or `TOKEN_MINUS`. -/
def token_is_unary_op : Token → Bool
  | .tplus => true
  | .tminus => true
  | _ => false

/-- `token_is_comparison_op`. -/
def token_is_comparison_op : Token → Bool
  | .teq => true | .tneq => true | .tlt => true
  | .tlte => true | .tgt => true | .tgte => true
  | _ => false

/-- An entry of the static function/constant table: a function with its
arity, or a constant (`arg_count == -1`, token `TOKEN_CONSTANT`). -/
inductive TableEntry : Type
  | fnEntry (f : Func) (argCount : ℕ)
  | constEntry
deriving DecidableEq, Repr

/-- `function_table_lookup` over the rows of `src/lexer/function_table.c`
(first match wins; exact-case `strcmp`).  The constant rows are the unified
constant token of `tokens.h` (see the header comment of this file). -/
def function_table_lookup (name : String) : Option TableEntry :=
  if name = "sin" then some (.fnEntry .fsin 1)
  else if name = "cos" then some (.fnEntry .fcos 1)
  else if name = "tan" then some (.fnEntry .ftan 1)
  else if name = "asin" then some (.fnEntry .fasin 1)
  else if name = "arcsin" then some (.fnEntry .fasin 1)
  else if name = "acos" then some (.fnEntry .facos 1)
  else if name = "arccos" then some (.fnEntry .facos 1)
  else if name = "atan" then some (.fnEntry .fatan 1)
  else if name = "arctan" then some (.fnEntry .fatan 1)
  else if name = "atan2" then some (.fnEntry .fatan2 2)
  else if name = "arctan2" then some (.fnEntry .fatan2 2)
  else if name = "sinh" then some (.fnEntry .fsinh 1)
  else if name = "cosh" then some (.fnEntry .fcosh 1)
  else if name = "tanh" then some (.fnEntry .ftanh 1)
  else if name = "asinh" then some (.fnEntry .fasinh 1)
  else if name = "arcsinh" then some (.fnEntry .fasinh 1)
  else if name = "acosh" then some (.fnEntry .facosh 1)
  else if name = "arccosh" then some (.fnEntry .facosh 1)
  else if name = "atanh" then some (.fnEntry .fatanh 1)
  else if name = "arctanh" then some (.fnEntry .fatanh 1)
  else if name = "sqrt" then some (.fnEntry .fsqrt 1)
  else if name = "log" then some (.fnEntry .flog 1)
  else if name = "ln" then some (.fnEntry .flog 1)
  else if name = "log10" then some (.fnEntry .flog10 1)
  else if name = "exp" then some (.fnEntry .fexp 1)
  else if name = "abs" then some (.fnEntry .fabs 1)
  else if name = "floor" then some (.fnEntry .ffloor 1)
  else if name = "ceil" then some (.fnEntry .fceil 1)
  else if name = "pow" then some (.fnEntry .fpow 2)
  else if name = "pi" ∨ name = "PI" ∨ name = "e" ∨ name = "E" ∨
      name = "ln2" ∨ name = "LN2" ∨ name = "ln10" ∨ name = "LN10" ∨
      name = "gamma" ∨ name = "GAMMA" then some .constEntry
  else none

/-- `function_table_get_arg_count` restricted to function tokens (the
parser only calls it on those). -/
def function_table_get_arg_count : Func → ℕ
  | .fatan2 => 2
  | .fpow => 2
  | _ => 1

/-- `MAX_INPUT_LENGTH` from `src/lexer/lexer.c`. -/
def MAX_INPUT_LENGTH : ℕ := 1024

/-- The `Lexer` struct.  `current_char` is maintained by the C code as
`text[pos]` when `pos < input_length` and `'\0'` otherwise; we derive it. -/
structure Lexer : Type where
  text : List Char
  pos : ℕ
deriving DecidableEq, Repr

/-- The maintained `current_char` field. -/
def Lexer.currentChar (l : Lexer) : Char := l.text.getD l.pos '\x00'

/-- `lexer_init`: inputs longer than `MAX_INPUT_LENGTH` yield the unusable
empty state. -/
def lexer_init (input : List Char) : Lexer :=
  if input.length > MAX_INPUT_LENGTH then ⟨[], 0⟩ else ⟨input, 0⟩

/-- `lexer_advance`. -/
def lexer_advance (l : Lexer) : Lexer :=
  if l.pos ≥ l.text.length then l else ⟨l.text, l.pos + 1⟩

/-- `lexer_peek`. -/
def lexer_peek (l : Lexer) : Char :=
  if l.pos + 1 ≥ l.text.length then '\x00' else l.text.getD (l.pos + 1) '\x00'

/-- `lexer_peek_ahead`. -/
def lexer_peek_ahead (l : Lexer) (offset : ℕ) : Char :=
  if l.pos + offset ≥ l.text.length then '\x00'
  else l.text.getD (l.pos + offset) '\x00'

/-- C `isspace` for the ASCII locale. -/
def isspaceC (c : Char) : Bool :=
  c = ' ' || c = '\t' || c = '\n' || c = '\x0b' || c = '\x0c' || c = '\r'

theorem lexer_advance_text (l : Lexer) : (lexer_advance l).text = l.text := by
  unfold lexer_advance
  split <;> rfl

theorem lexer_advance_measure (l : Lexer) (h : l.currentChar ≠ '\x00') :
    (lexer_advance l).text.length - (lexer_advance l).pos <
      l.text.length - l.pos := by
  have hpos : l.pos < l.text.length := by
    by_contra hge
    push_neg at hge
    exact h (List.getD_eq_default _ _ hge)
  rw [lexer_advance_text]
  unfold lexer_advance
  rw [if_neg (by omega)]
  dsimp only
  omega

/-- The body of `lexer_skip_whitespace`, recursing on an explicit step
bound.  Every iteration advances the cursor, so the bound
`text.length - pos + 1` supplied by `lexer_skip_whitespace` is never
exhausted (structural recursion on the bound keeps the definition
kernel-reducible). -/
def lexer_skip_whitespace_fuel : ℕ → Lexer → Lexer
  | 0, l => l
  | fuel + 1, l =>
    if l.currentChar ≠ '\x00' ∧ isspaceC l.currentChar then
      lexer_skip_whitespace_fuel fuel (lexer_advance l)
    else l

/-- `lexer_skip_whitespace`. -/
def lexer_skip_whitespace (l : Lexer) : Lexer :=
  lexer_skip_whitespace_fuel (l.text.length - l.pos + 1) l

/-- The integer/fraction scanning loop of `lexer_lex_number`; a `none`
payload models the early `TOKEN_INVALID` returns (the characters consumed
so far stay consumed).  `buf` is the literal buffer (capacity 255 content
characters in C).  Recursion is on a step bound that the wrapper supplies
as `text.length - pos + 1`, which the advancing loop can never exhaust. -/
def lex_number_scan_fuel : ℕ → Lexer → List Char → Bool → ℕ →
    Lexer × Option (List Char × Bool × ℕ)
  | 0, l, buf, hasDot, digits => (l, some (buf, hasDot, digits))
  | fuel + 1, l, buf, hasDot, digits =>
    let c := l.currentChar
    if (c.isDigit || c = '.') && c ≠ '\x00' && buf.length < 255 then
      if c = '.' then
        if hasDot then (l, none)
        else if ¬ (lexer_peek l).isDigit ∧ digits = 0 then (l, none)
        else lex_number_scan_fuel fuel (lexer_advance l) (buf ++ [c]) true digits
      else lex_number_scan_fuel fuel (lexer_advance l) (buf ++ [c]) hasDot (digits + 1)
    else (l, some (buf, hasDot, digits))

/-- The integer/fraction scanning loop of `lexer_lex_number`. -/
def lex_number_scan (l : Lexer) (buf : List Char) (hasDot : Bool)
    (digits : ℕ) : Lexer × Option (List Char × Bool × ℕ) :=
  lex_number_scan_fuel (l.text.length - l.pos + 1) l buf hasDot digits

/-- The exponent-digit scanning loop of `lexer_lex_number` (same step-bound
convention). -/
def lex_exp_scan_fuel : ℕ → Lexer → List Char → ℕ → Lexer × List Char × ℕ
  | 0, l, buf, expDigits => (l, buf, expDigits)
  | fuel + 1, l, buf, expDigits =>
    let c := l.currentChar
    if c.isDigit && c ≠ '\x00' && buf.length < 255 then
      lex_exp_scan_fuel fuel (lexer_advance l) (buf ++ [c]) (expDigits + 1)
    else (l, buf, expDigits)

/-- The exponent-digit scanning loop of `lexer_lex_number`. -/
def lex_exp_scan (l : Lexer) (buf : List Char) (expDigits : ℕ) :
    Lexer × List Char × ℕ :=
  lex_exp_scan_fuel (l.text.length - l.pos + 1) l buf expDigits

/-- Value of a list of decimal digit characters. -/
def digitsToNat (s : List Char) : ℕ :=
  s.foldl (fun a c => 10 * a + (c.toNat - 48)) 0

/-- Split a literal buffer at the first `e`/`E` (the exponent marker). -/
def splitAtExp : List Char → List Char × List Char
  | [] => ([], [])
  | c :: cs =>
    if c = 'e' ∨ c = 'E' then ([], cs)
    else
      let p := splitAtExp cs
      (c :: p.1, p.2)

/-- Split a mantissa buffer at the decimal point. -/
def splitAtDot : List Char → List Char × List Char
  | [] => ([], [])
  | c :: cs =>
    if c = '.' then ([], cs)
    else
      let p := splitAtDot cs
      (c :: p.1, p.2)

/-- `mant · 10^(exp - fracLen)` as an exact rational, phrased through
`Rat.divInt` and `Nat` powers so that the kernel can evaluate it. -/
def decValue (mant : ℕ) (fracLen : ℕ) (exp : ℤ) : ℚ :=
  let e := exp - (fracLen : ℤ)
  if 0 ≤ e then Rat.divInt ((mant * 10 ^ e.toNat : ℕ) : ℤ) 1
  else Rat.divInt (mant : ℤ) (((10 ^ (-e).toNat : ℕ) : ℤ))

/-- Exact value of a decimal literal buffer
(`digits[.digits][eE[+-]digits]`): used both for `strtod`'s value (range
check) and for `mpfr_set_str` in `ast_create_number`, idealised as exact. -/
def parseDecimal (s : List Char) : ℚ :=
  let me := splitAtExp s
  let ifr := splitAtDot me.1
  let exp : ℤ :=
    match me.2 with
    | '+' :: ds => (digitsToNat ds : ℤ)
    | '-' :: ds => -(digitsToNat ds : ℤ)
    | ds => (digitsToNat ds : ℤ)
  decValue (digitsToNat (ifr.1 ++ ifr.2)) ifr.2.length exp

/-- `|q|` phrased without order-instance indirections. -/
def qabs (q : ℚ) : ℚ := if q < 0 then -q else q

/-- `strtod` range failure (`errno == ERANGE`, `isinf`, `isnan`): the
decimal value overflows the double range, or underflows to a nonzero
sub-minimal magnitude. -/
def strtodRangeFail (q : ℚ) : Bool :=
  ((2 ^ 1024 : ℕ) : ℚ) ≤ qabs q ||
    (q ≠ 0 && qabs q < Rat.divInt 1 (((2 ^ 1074 : ℕ) : ℤ)))

/-- `INT_MAX` (the int token payload is a C `int`). -/
def INT_MAX : ℕ := 2 ^ 31 - 1

/-- `lexer_lex_number` from `src/lexer/lexer.c`. -/
def lexer_lex_number (l : Lexer) : Token × Lexer :=
  -- edge case: single dot without digits
  if l.currentChar = '.' ∧ ¬ (lexer_peek l).isDigit then (.tinvalid, l)
  else
    match lex_number_scan l [] false 0 with
    | (l, none) => (.tinvalid, l)
    | (l, some (buf, hasDot, digits)) =>
      if digits = 0 then (.tinvalid, l)
      else
        -- scientific notation
        let c := l.currentChar
        let next := lexer_peek l
        let afterNext := lexer_peek_ahead l 2
        let takeExp := (c = 'e' ∨ c = 'E') ∧
          (next.isDigit ∨ ((next = '+' ∨ next = '-') ∧ afterNext.isDigit))
        if takeExp then
          if buf.length ≥ 255 then (.tinvalid, l)
          else
            let buf := buf ++ [c]
            let l := lexer_advance l
            let signStep : Option (Lexer × List Char) :=
              if l.currentChar = '+' ∨ l.currentChar = '-' then
                if buf.length ≥ 255 then none
                else some (lexer_advance l, buf ++ [l.currentChar])
              else some (l, buf)
            match signStep with
            | none => (.tinvalid, l)
            | some (l, buf) =>
              let r := lex_exp_scan l buf 0
              if r.2.2 = 0 then (.tinvalid, r.1)
              else finishNumber r.1 r.2.1 true
        else finishNumber l buf hasDot
where
  /-- The token-construction tail of `lexer_lex_number` (after
  `buffer[buf_idx] = '\0'`). -/
  finishNumber (l : Lexer) (buf : List Char) (dotOrExp : Bool) :
      Token × Lexer :=
    let q := parseDecimal buf
    if dotOrExp then
      if strtodRangeFail q then (.tinvalid, l)
      else (.tfloat (String.mk buf), l)
    else
      -- strtol never sees a sign here; ERANGE and the INT_MAX check both
      -- demote the token to TOKEN_FLOAT with the literal preserved
      if digitsToNat buf > INT_MAX then (.tfloat (String.mk buf), l)
      else (.tint (String.mk buf), l)

/-- The identifier scanning loop of `lexer_lex_identifier` (buffer capacity
63 content characters; same step-bound convention). -/
def lex_ident_scan_fuel : ℕ → Lexer → List Char → Lexer × List Char
  | 0, l, buf => (l, buf)
  | fuel + 1, l, buf =>
    let c := l.currentChar
    if (c.isAlphanum || c = '_') && c ≠ '\x00' && buf.length < 63 then
      lex_ident_scan_fuel fuel (lexer_advance l) (buf ++ [c])
    else (l, buf)

/-- The identifier scanning loop of `lexer_lex_identifier`. -/
def lex_ident_scan (l : Lexer) (buf : List Char) : Lexer × List Char :=
  lex_ident_scan_fuel (l.text.length - l.pos + 1) l buf

/-- `lexer_lex_identifier` from `src/lexer/lexer.c`. -/
def lexer_lex_identifier (l : Lexer) : Token × Lexer :=
  let r := lex_ident_scan l []
  let name := String.mk r.2
  match function_table_lookup name with
  | some .constEntry => (.tconstant name, r.1)
  | some (.fnEntry f _) => (.tfunc f, r.1)
  | none => (.tidentifier name, r.1)

/-- `lexer_get_next_token` from `src/lexer/lexer.c`. -/
def lexer_get_next_token (l : Lexer) : Token × Lexer :=
  let l := lexer_skip_whitespace l
  let c := l.currentChar
  if c = '\x00' then (.teof, l)
  else if c.isDigit then lexer_lex_number l
  else if c = '.' then
    if (lexer_peek l).isDigit then lexer_lex_number l
    else (.tinvalid, lexer_advance l)
  else if c.isAlpha || c = '_' then lexer_lex_identifier l
  else if c = '+' then (.tplus, lexer_advance l)
  else if c = '-' then (.tminus, lexer_advance l)
  else if c = '*' then (.tstar, lexer_advance l)
  else if c = '/' then (.tslash, lexer_advance l)
  else if c = '^' then (.tcaret, lexer_advance l)
  else if c = '(' then (.tlparen, lexer_advance l)
  else if c = ')' then (.trparen, lexer_advance l)
  else if c = ',' then (.tcomma, lexer_advance l)
  else if c = '=' then
    if lexer_peek l = '=' then (.teq, lexer_advance (lexer_advance l))
    else (.tinvalid, lexer_advance l)
  else if c = '!' then
    if lexer_peek l = '=' then (.tneq, lexer_advance (lexer_advance l))
    else (.tinvalid, lexer_advance l)
  else if c = '<' then
    if lexer_peek l = '=' then (.tlte, lexer_advance (lexer_advance l))
    else (.tlt, lexer_advance l)
  else if c = '>' then
    if lexer_peek l = '=' then (.tgte, lexer_advance (lexer_advance l))
    else (.tgt, lexer_advance l)
  else (.tinvalid, lexer_advance l)

/-- The token stream of an input: repeated `lexer_get_next_token` until
`TOKEN_EOF` (each non-EOF token consumes at least one character, so
`length + 1` calls always reach EOF). -/
def tokenize_fuel : ℕ → Lexer → List Token
  | 0, _ => []
  | fuel + 1, l =>
    let r := lexer_get_next_token l
    if r.1 = .teof then [] else r.1 :: tokenize_fuel fuel r.2

/-- `lex(text)`: the full token stream of a string. -/
def tokenize (s : String) : List Token :=
  tokenize_fuel (s.data.length + 1) (lexer_init s.data)

/-! ## Parser (`src/parser/parser.c`, `src/parser/ast.c`)

The C parse functions are translated with a fuel argument: every grammar
function and loop iteration consumes one unit, and exhausted fuel is
modelled as a parse error.  The top-level entry point supplies fuel far in
excess of what any input of its length can consume, so fuel exhaustion is
unreachable on the concrete inputs evaluated below. -/

/-- The `Parser` struct from `src/parser/parser.h`. -/
structure Parser : Type where
  lexer : Lexer
  current_token : Token
  previous_token : Token
  recursion_depth : ℤ
  max_depth : ℤ
  error_occurred : Bool
deriving DecidableEq, Repr

/-- `MAX_RECURSION_DEPTH` from `src/parser/parser.c`. -/
def MAX_RECURSION_DEPTH : ℤ := 100

/-- `parser_init`. -/
def parser_init (l : Lexer) : Parser :=
  let r := lexer_get_next_token l
  { lexer := r.2
    current_token := r.1
    previous_token := .tinvalid
    recursion_depth := 0
    max_depth := MAX_RECURSION_DEPTH
    error_occurred := false }

/-- `parser_advance`. -/
def parser_advance (p : Parser) : Parser :=
  let r := lexer_get_next_token p.lexer
  { p with
    previous_token := p.current_token
    current_token := r.1
    lexer := r.2 }

/-- `prev == TOKEN_INT || prev == TOKEN_FLOAT`. -/
def token_is_number : Token → Bool
  | .tint _ => true
  | .tfloat _ => true
  | _ => false

/-- `should_insert_multiplication` from `src/parser/parser.c`. -/
def should_insert_multiplication (p : Parser) : Bool :=
  let prev := p.previous_token
  let curr := p.current_token
  (token_is_number prev && curr = .tlparen) ||
  (prev = .trparen && curr = .tlparen) ||
  (prev = .trparen && token_is_number curr) ||
  (token_is_number prev && token_is_number curr) ||
  (token_is_number prev && token_is_function curr) ||
  (prev = .trparen && token_is_function curr) ||
  ((token_is_number prev || prev = .trparen) && token_is_constant curr) ||
  (token_is_constant prev && (token_is_number curr || curr = .tlparen))

/-- `ast_create_number` (`src/parser/ast.c`): parses the preserved literal
substring with `mpfr_set_str` at the current precision, idealised as an
exact decimal parse. -/
def ast_create_number (s : String) (isInt : Bool) : Option AST :=
  some (.num (parseDecimal s.data) isInt)

/-- `ast_create_function` (`src/parser/ast.c`): wrap a parsed argument
array (always of the function's arity, 1 or 2, checked by the caller) into
a function node. -/
def ast_create_function (f : Func) (args : List AST) : Option AST :=
  match args with
  | [a] => some (.call1 f a)
  | [a, b] => some (.call2 f a b)
  | _ => none

/-- Comparison token to its binary operator (only called under
`token_is_comparison_op`). -/
def comparison_binop : Token → BinOp
  | .tneq => .bneq
  | .tlt => .blt
  | .tlte => .blte
  | .tgt => .bgt
  | .tgte => .bgte
  | _ => .beq

mutual

/-- `parser_parse_expression`: the public wrapper carrying
`CHECK_RECURSION_DEPTH` / `RETURN_WITH_DEPTH_DECREMENT`. -/
def parser_parse_expression : ℕ → Parser → Option AST × Parser
  | 0, p => (none, { p with error_occurred := true })
  | fuel + 1, p =>
    if p.recursion_depth ≥ p.max_depth then
      (none, { p with error_occurred := true })
    else
      let p := { p with recursion_depth := p.recursion_depth + 1 }
      let r := parse_expression_impl fuel p
      (r.1, { r.2 with recursion_depth := r.2.recursion_depth - 1 })

/-- `parse_expression_impl`. -/
def parse_expression_impl : ℕ → Parser → Option AST × Parser
  | 0, p => (none, { p with error_occurred := true })
  | fuel + 1, p => parse_comparison_impl fuel p

/-- `parse_comparison_impl`. -/
def parse_comparison_impl : ℕ → Parser → Option AST × Parser
  | 0, p => (none, { p with error_occurred := true })
  | fuel + 1, p =>
    let r := parse_term_impl fuel p
    match r.1 with
    | none => r
    | some left =>
      if r.2.error_occurred then r
      else parse_comparison_loop fuel left r.2

/-- The comparison `while` loop of `parse_comparison_impl`. -/
def parse_comparison_loop : ℕ → AST → Parser → Option AST × Parser
  | 0, _, p => (none, { p with error_occurred := true })
  | fuel + 1, left, p =>
    if token_is_comparison_op p.current_token then
      let op := comparison_binop p.current_token
      let p := parser_advance p
      let r := parse_term_impl fuel p
      match r.1 with
      | none => (none, r.2)
      | some right =>
        if r.2.error_occurred then (none, r.2)
        else parse_comparison_loop fuel (.binop op left right) r.2
    else (some left, p)

/-- `parse_term_impl`. -/
def parse_term_impl : ℕ → Parser → Option AST × Parser
  | 0, p => (none, { p with error_occurred := true })
  | fuel + 1, p =>
    let r := parse_factor_impl fuel p
    match r.1 with
    | none => r
    | some left =>
      if r.2.error_occurred then r
      else parse_term_loop fuel left r.2

/-- The additive `while` loop of `parse_term_impl`. -/
def parse_term_loop : ℕ → AST → Parser → Option AST × Parser
  | 0, _, p => (none, { p with error_occurred := true })
  | fuel + 1, left, p =>
    if p.current_token = .tplus ∨ p.current_token = .tminus then
      let op : BinOp := if p.current_token = .tplus then .plus else .minus
      let p := parser_advance p
      let r := parse_factor_impl fuel p
      match r.1 with
      | none => (none, r.2)
      | some right =>
        if r.2.error_occurred then (none, r.2)
        else parse_term_loop fuel (.binop op left right) r.2
    else (some left, p)

/-- `parse_factor_impl`. -/
def parse_factor_impl : ℕ → Parser → Option AST × Parser
  | 0, p => (none, { p with error_occurred := true })
  | fuel + 1, p =>
    let r := parse_power_impl fuel p
    match r.1 with
    | none => r
    | some left =>
      if r.2.error_occurred then r
      else parse_factor_loop fuel left r.2 0

/-- The multiplicative / implicit-multiplication `while` loop of
`parse_factor_impl` (`max_implicit_mult` = 1000). -/
def parse_factor_loop : ℕ → AST → Parser → ℕ → Option AST × Parser
  | 0, _, p, _ => (none, { p with error_occurred := true })
  | fuel + 1, left, p, count =>
    if (p.current_token = .tstar ∨ p.current_token = .tslash ∨
        should_insert_multiplication p) ∧ count < 1000 then
      let insert := should_insert_multiplication p
      let op : BinOp :=
        if insert then .star
        else if p.current_token = .tstar then .star else .slash
      let count := if insert then count + 1 else count
      let p := if insert then p else parser_advance p
      let r := parse_power_impl fuel p
      match r.1 with
      | none => (none, r.2)
      | some right =>
        if r.2.error_occurred then (none, r.2)
        else parse_factor_loop fuel (.binop op left right) r.2 count
    else
      if count ≥ 1000 then (none, { p with error_occurred := true })
      else (some left, p)

/-- `parse_power_impl` (right-associative `^`). -/
def parse_power_impl : ℕ → Parser → Option AST × Parser
  | 0, p => (none, { p with error_occurred := true })
  | fuel + 1, p =>
    let r := parse_unary_impl fuel p
    match r.1 with
    | none => r
    | some left =>
      if r.2.error_occurred then r
      else if r.2.current_token = .tcaret then
        let p := parser_advance r.2
        let r2 := parse_power_impl fuel p
        match r2.1 with
        | none => (none, r2.2)
        | some right =>
          if r2.2.error_occurred then (none, r2.2)
          else (some (.binop .caret left right), r2.2)
      else r

/-- `parse_unary_impl` (self-recursive for chains like `--3`). -/
def parse_unary_impl : ℕ → Parser → Option AST × Parser
  | 0, p => (none, { p with error_occurred := true })
  | fuel + 1, p =>
    if token_is_unary_op p.current_token then
      let op : UnOp := if p.current_token = .tplus then .uplus else .uminus
      let p := parser_advance p
      let r := parse_unary_impl fuel p
      match r.1 with
      | none => (none, r.2)
      | some operand =>
        if r.2.error_occurred then (none, r.2)
        else (some (.unary op operand), r.2)
    else parse_primary_impl fuel p

/-- `parse_primary_impl`.  The constant case follows the unified constant
token of `tokens.h` (see the header comment). -/
def parse_primary_impl : ℕ → Parser → Option AST × Parser
  | 0, p => (none, { p with error_occurred := true })
  | fuel + 1, p =>
    match p.current_token with
    | .tint s => (ast_create_number s true, parser_advance p)
    | .tfloat s => (ast_create_number s false, parser_advance p)
    | .tlparen =>
      let p := parser_advance p
      let r := parse_expression_impl fuel p
      match r.1 with
      | none => (none, r.2)
      | some expr =>
        if r.2.error_occurred then (none, r.2)
        else if r.2.current_token ≠ .trparen then
          (none, { r.2 with error_occurred := true })
        else (some expr, parser_advance r.2)
    | .tconstant name => (some (.constant name), parser_advance p)
    | .tinvalid => (none, { p with error_occurred := true })
    | .tidentifier _ => (none, { p with error_occurred := true })
    | .tfunc f => parser_parse_function_call fuel (parser_advance p) f
    | _ => (none, { p with error_occurred := true })

/-- `parser_parse_function_call` (arity-checked argument parsing). -/
def parser_parse_function_call : ℕ → Parser → Func → Option AST × Parser
  | 0, p, _ => (none, { p with error_occurred := true })
  | fuel + 1, p, f =>
    let expected := function_table_get_arg_count f
    if p.current_token ≠ .tlparen then
      (none, { p with error_occurred := true })
    else
      let p := parser_advance p
      let r := parse_expression_impl fuel p
      match r.1 with
      | none => (none, r.2)
      | some a0 =>
        if r.2.error_occurred then (none, r.2)
        else
          let ra := parse_fcall_args fuel expected [a0] r.2
          match ra.1 with
          | none => (none, ra.2)
          | some args =>
            if args.length ≠ expected then
              (none, { ra.2 with error_occurred := true })
            else if ra.2.current_token ≠ .trparen then
              (none, { ra.2 with error_occurred := true })
            else (ast_create_function f args, parser_advance ra.2)

/-- The comma-separated-argument `while` loop of
`parser_parse_function_call`. -/
def parse_fcall_args : ℕ → ℕ → List AST → Parser → Option (List AST) × Parser
  | 0, _, _, p => (none, { p with error_occurred := true })
  | fuel + 1, expected, args, p =>
    if args.length < expected ∧ p.current_token = .tcomma then
      let p := parser_advance p
      let r := parse_expression_impl fuel p
      match r.1 with
      | none => (none, r.2)
      | some a =>
        if r.2.error_occurred then (none, r.2)
        else parse_fcall_args fuel expected (args ++ [a]) r.2
    else (some args, p)

end

/-- Fuel supplied to a top-level parse: far more steps than any input of
this length can drive the parser through. -/
def parseFuel (s : String) : ℕ := 16 * s.length + 64

/-- `parse`: initialise a lexer and parser on the input and run the
top-level `parser_parse_expression`, as `repl_process_line` does. -/
def parseString (s : String) : Option AST × Parser :=
  parser_parse_expression (parseFuel s) (parser_init (lexer_init s.data))

/-- An input of `n` nested parentheses around the literal `1`. -/
def nestedParens (n : ℕ) : String :=
  String.mk (List.replicate n '(' ++ '1' :: List.replicate n ')')

/-! ## Precision context and constants registry
(`src/core/precision.c`, `src/core/constants.c`) -/

/-- `DEFAULT_PRECISION` from `src/core/precision.h`. -/
def DEFAULT_PRECISION : ℤ := 256

/-- `MIN_PRECISION` from `src/core/precision.h`. -/
def MIN_PRECISION : ℤ := 2

/-- `MAX_PRECISION` from `src/core/precision.h`. -/
def MAX_PRECISION : ℤ := 8192

/-- `ConstantType` from `src/core/constants.h`. -/
inductive ConstantType : Type
  | cpi | ce | cln2 | cln10 | cgamma | csqrt2
deriving DecidableEq, Repr

/-- The `name` column of `constant_metadata` in `src/core/constants.c`. -/
def constant_metadata_name : ConstantType → String
  | .cpi => "pi"
  | .ce => "e"
  | .cln2 => "ln2"
  | .cln10 => "ln10"
  | .cgamma => "gamma"
  | .csqrt2 => "sqrt2"

/-- The `compute_fn` column of `constant_metadata`: each entry calls an
MPFR constant routine (`mpfr_const_pi`, ...) at a requested precision.
Those routines are external library code, so they enter the embedding as
an oracle mapping (constant, precision) to the computed value. -/
def ConstOracle : Type := ConstantType → ℕ → ℚ

/-- `CachedConstant` from `src/core/constants.h`. -/
structure CachedConstant : Type where
  value : ℚ
  precision : ℕ
  is_initialized : Bool
deriving DecidableEq, Repr

/-- The process-wide state the constants registry interacts with:
`global_precision` (`precision.c`) and the `cached_constants` array
(`constants.c`). -/
structure RegistryState : Type where
  prec : ℕ
  cache : ConstantType → CachedConstant

/-- `precision_init` + `constants_init`: the state at program start. -/
def registry_init : RegistryState :=
  { prec := 256, cache := fun _ => { value := 0, precision := 0, is_initialized := false } }

/-- `set_precision` from `src/core/precision.c`: clamps to
`[MIN_PRECISION, MAX_PRECISION]` and stores; it performs no cache
invalidation. -/
def set_precision (p : ℤ) (st : RegistryState) : RegistryState :=
  let p := if p < MIN_PRECISION then MIN_PRECISION else p
  let p := if p > MAX_PRECISION then MAX_PRECISION else p
  { st with prec := p.toNat }

/-- `CONSTANT_PRECISION_BOOST` from `src/core/constants.c`. -/
def CONSTANT_PRECISION_BOOST : ℕ := 128

/-- `constants_get_by_type` from `src/core/constants.c`: computes the
constant at `global_precision + CONSTANT_PRECISION_BOOST` and rounds the
result down to `global_precision` (rounding idealised as exact).  It never
reads or writes `cached_constants`. -/
def constants_get_by_type (cc : ConstOracle) (t : ConstantType)
    (st : RegistryState) : ℚ × RegistryState :=
  (cc t (st.prec + CONSTANT_PRECISION_BOOST), st)

/-- `ensure_constant_precision` from `src/core/constants.c`: the only
writer of `cached_constants`.  No function in the source ever calls it. -/
def ensure_constant_precision (t : ConstantType) (st : RegistryState) :
    RegistryState :=
  let entry := st.cache t
  let entry :=
    if ¬ entry.is_initialized ∨ entry.precision ≠ st.prec then
      { entry with is_initialized := true }
    else entry
  let entry := { entry with precision := st.prec }
  { st with cache := fun u => if u = t then entry else st.cache u }

/-- `constants_is_cached_by_type` from `src/core/constants.c`. -/
def constants_is_cached_by_type (t : ConstantType) (st : RegistryState) :
    Bool :=
  (st.cache t).is_initialized && (st.cache t).precision = st.prec

/-- The exact-case (`strcmp`) metadata lookup of `constants_is_cached`. -/
def constants_find_exact (name : String) : Option ConstantType :=
  if name = "pi" then some .cpi
  else if name = "e" then some .ce
  else if name = "ln2" then some .cln2
  else if name = "ln10" then some .cln10
  else if name = "gamma" then some .cgamma
  else if name = "sqrt2" then some .csqrt2
  else none

/-- `constants_is_cached` from `src/core/constants.c`. -/
def constants_is_cached (name : String) (st : RegistryState) : Bool :=
  match constants_find_exact name with
  | some t => constants_is_cached_by_type t st
  | none => false

/-- The case-insensitive (`strcasecmp`) metadata lookup of
`constants_get_by_name`; the table names are lower-case ASCII, so
`strcasecmp` equality is equality after lower-casing. -/
def strToLower (s : String) : String := ⟨s.data.map Char.toLower⟩

def constants_find_ci (name : String) : Option ConstantType :=
  constants_find_exact (strToLower name)

/-- `constants_get_by_name` from `src/core/constants.c`: `none` models the
`return 0` (unknown constant) path. -/
def constants_get_by_name (cc : ConstOracle) (name : String)
    (st : RegistryState) : Option ℚ × RegistryState :=
  match constants_find_ci name with
  | some t =>
    let r := constants_get_by_type cc t st
    (some r.1, r.2)
  | none => (none, st)

/-- `clear_cached` from `src/core/constants.c`. -/
def clear_cached (t : ConstantType) (st : RegistryState) : RegistryState :=
  let entry := st.cache t
  let entry :=
    if entry.is_initialized then { entry with is_initialized := false }
    else entry
  { st with cache := fun u => if u = t then entry else st.cache u }

/-- A host-visible interaction with the registry: changing the precision
or reading a constant. -/
inductive RegistryOp : Type
  | setPrecision (p : ℤ)
  | getConst (name : String)

/-- One interaction step. -/
def registry_step (cc : ConstOracle) : RegistryOp → RegistryState → RegistryState
  | .setPrecision p, st => set_precision p st
  | .getConst name, st => (constants_get_by_name cc name st).2

/-- A whole interaction history. -/
def registry_run (cc : ConstOracle) (ops : List RegistryOp)
    (st : RegistryState) : RegistryState :=
  ops.foldl (fun st op => registry_step cc op st) st

/-! ## Evaluator and function dispatch
(`src/core/evaluator.c`, `src/core/functions.c`) -/

/-- The two process-local error buffers: `last_error` of `evaluator.c` and
`last_error` of `functions.c` (empty buffer = `none`). -/
structure EvalSt : Type where
  evalErr : Option String
  funcErr : Option String
deriving DecidableEq, Repr

/-- The evaluator's environment: the current `global_precision` and
oracles for the external MPFR routines (`mpfr_sin`, `mpfr_pow`,
`mpfr_const_pi`, ...).  The oracles are only consulted for in-domain
arguments; every domain check, arity check, error message and fallback
value is translated from the repository's own code. -/
structure EvalCfg : Type where
  prec : ℕ := 256
  F1 : Func → ℚ → ℚ
  F2 : Func → ℚ → ℚ → ℚ
  CC : ConstOracle

/-- `strict_mode` of `src/core/evaluator.c` as initialised (line 9); the
host toggle `evaluator_set_strict_mode` is never exercised by the claims. -/
def strict_mode : Bool := false

/-- `strict_domain_mode` of `src/core/functions.c` as initialised. -/
def strict_domain_mode : Bool := false

/-- `functions_check_domain` from `src/core/functions.c`. -/
def functions_check_domain (f : Func) (args : List ℚ) : Bool :=
  match f, args with
  | .fasin, [a] => a < -1 ∨ 1 < a
  | .facos, [a] => a < -1 ∨ 1 < a
  | .facosh, [a] => a < 1
  | .fatanh, [a] => a ≤ -1 ∨ 1 ≤ a
  | .fsqrt, [a] => a < 0
  | .flog, [a] => a ≤ 0
  | .flog10, [a] => a ≤ 0
  | .fasin, _ => true
  | .facos, _ => true
  | .facosh, _ => true
  | .fatanh, _ => true
  | .fsqrt, _ => true
  | .flog, _ => true
  | .flog10, _ => true
  | .fsin, _ => false
  | .fcos, _ => false
  | .ftan, _ => false
  | .fatan, _ => false
  | .fatan2, _ => false
  | .fsinh, _ => false
  | .fcosh, _ => false
  | .ftanh, _ => false
  | .fasinh, _ => false
  | .fexp, _ => false
  | .fabs, _ => false
  | .ffloor, _ => false
  | .fceil, _ => false
  | .fpow, _ => false

/-- The domain-error message recorded by `functions_eval` when the inline
domain check of a function fires, or `none` when the arguments are in
domain (arity assumed correct). -/
def functions_domain_error (f : Func) (args : List ℚ) : Option String :=
  match f, args with
  | .fasin, [a] =>
    if a < -1 ∨ 1 < a then some "asin domain error: argument must be in [-1,1]"
    else none
  | .facos, [a] =>
    if a < -1 ∨ 1 < a then some "acos domain error: argument must be in [-1,1]"
    else none
  | .facosh, [a] =>
    if a < 1 then some "acosh domain error: argument must be >= 1" else none
  | .fatanh, [a] =>
    if a ≤ -1 ∨ 1 ≤ a then some "atanh domain error: argument must be in (-1,1)"
    else none
  | .fsqrt, [a] =>
    if a < 0 then some "sqrt domain error: argument must be >= 0" else none
  | .flog, [a] =>
    if a ≤ 0 then some "log domain error: argument must be > 0" else none
  | .flog10, [a] =>
    if a ≤ 0 then some "log10 domain error: argument must be > 0" else none
  | _, _ => none

/-- The expected argument count of each `functions_eval` case. -/
def functions_arity (f : Func) : ℕ :=
  match f with
  | .fatan2 => 2
  | .fpow => 2
  | _ => 1

/-- The in-domain result of each `functions_eval` case: `mpfr_abs`,
`mpfr_floor` and `mpfr_ceil` are exact on rationals; every other routine
is an oracle call. -/
def functions_value (cfg : EvalCfg) (f : Func) (args : List ℚ) : ℚ :=
  match f, args with
  | .fabs, [a] => qabs a
  | .ffloor, [a] => ((a.floor : ℤ) : ℚ)
  | .fceil, [a] => ((a.ceil : ℤ) : ℚ)
  | .fatan2, [a, b] => cfg.F2 .fatan2 a b
  | .fpow, [a, b] => cfg.F2 .fpow a b
  | _, [a] => cfg.F1 f a
  | _, _ => 0

/-- `functions_eval` from `src/core/functions.c`: clears the module's
error buffer, runs the strict-mode pre-check (inactive at the initialised
`strict_domain_mode`), checks arity, checks the function's inline domain
condition, and either records a domain error with a `0` fallback or
delegates to the MPFR routine.  Returns the C function's `int` success
flag together with the result and the updated error state. -/
def functions_eval (cfg : EvalCfg) (f : Func) (args : List ℚ)
    (st : EvalSt) : Bool × ℚ × EvalSt :=
  let st := { st with funcErr := none }
  if strict_domain_mode ∧ functions_check_domain f args then
    -- mpfr_set_nan(result); NaN is outside the rational idealisation and
    -- this branch is unreachable while strict_domain_mode is 0
    (false, 0, st)
  else if args.length ≠ functions_arity f then
    (false, 0, { st with funcErr := some "Wrong number of arguments for function" })
  else
    match functions_domain_error f args with
    | some msg => (false, 0, { st with funcErr := some msg })
    | none => (true, functions_value cfg f args, st)

/-- `functions_get_last_error`. -/
def functions_get_last_error (st : EvalSt) : Option String := st.funcErr

/-- `evaluator_get_last_error`. -/
def evaluator_get_last_error (st : EvalSt) : Option String := st.evalErr

/-- `BINOP_PRECISION_BOOST` / `UNARY_PRECISION_BOOST` /
`FUNCTION_ARG_PRECISION_BOOST` from `src/core/evaluator.c` (the boosted
intermediate precision is idealised as exact arithmetic). -/
def PRECISION_BOOST : ℕ := 128

/-- The zero-snapping threshold of `evaluator_eval_function`:
`2^-(global_precision + 10)` (exactly representable at the working
precision). -/
def epsSnap (prec : ℕ) : ℚ := Rat.divInt 1 (((2 ^ (prec + 10) : ℕ) : ℤ))

/-- `evaluator_eval` from `src/core/evaluator.c` together with its static
helpers (`evaluator_eval_constant`, `_binop`, `_unary`, `_function`,
inlined as the match arms they dispatch to).  Every call — the top-level
one and every recursive one — starts with `evaluator_clear_error()`.
Intermediate precision boosting and the final rounding to
`global_precision` are idealised as exact arithmetic. -/
def evaluator_eval (cfg : EvalCfg) : AST → EvalSt → ℚ × EvalSt
  | node, st₀ =>
    let st := { st₀ with evalErr := none }
    match node with
    | .num v _ => (v, st)
    | .constant name =>
      -- evaluator_eval_constant: constants_get_by_name consults the
      -- metadata table case-insensitively and computes at prec + 128
      match constants_find_ci name with
      | some t => (cfg.CC t (cfg.prec + CONSTANT_PRECISION_BOOST), st)
      | none => (0, { st with evalErr := some ("Unknown constant: " ++ name) })
    | .binop op l r =>
      -- evaluator_eval_binop
      let rl := evaluator_eval cfg l st
      let rr := evaluator_eval cfg r rl.2
      let lv := rl.1
      let rv := rr.1
      let st := rr.2
      match op with
      | .plus => (lv + rv, st)
      | .minus => (lv - rv, st)
      | .star => (lv * rv, st)
      | .slash =>
        if rv = 0 then (0, { st with evalErr := some "Division by zero" })
        else (lv / rv, st)
      | .caret => (cfg.F2 .fpow lv rv, st)
      | .beq => (if lv = rv then 1 else 0, st)
      | .bneq => (if ¬ lv = rv then 1 else 0, st)
      | .blt => (if lv < rv then 1 else 0, st)
      | .blte => (if lv ≤ rv then 1 else 0, st)
      | .bgt => (if rv < lv then 1 else 0, st)
      | .bgte => (if rv ≤ lv then 1 else 0, st)
    | .unary op x =>
      -- evaluator_eval_unary
      let r := evaluator_eval cfg x st
      match op with
      | .uplus => (r.1, r.2)
      | .uminus => (-r.1, r.2)
    | .call1 f a =>
      -- evaluator_eval_function, arg_count = 1
      let ra := evaluator_eval cfg a st
      let fr := functions_eval cfg f [ra.1] ra.2
      let st :=
        if ¬ fr.1 ∧ strict_mode then
          { fr.2.2 with evalErr := some ("Function evaluation failed: " ++
              (fr.2.2.funcErr.getD "")) }
        else fr.2.2
      let res := if qabs fr.2.1 < epsSnap cfg.prec then 0 else fr.2.1
      (res, st)
    | .call2 f a b =>
      -- evaluator_eval_function, arg_count = 2
      let ra := evaluator_eval cfg a st
      let rb := evaluator_eval cfg b ra.2
      let fr := functions_eval cfg f [ra.1, rb.1] rb.2
      let st :=
        if ¬ fr.1 ∧ strict_mode then
          { fr.2.2 with evalErr := some ("Function evaluation failed: " ++
              (fr.2.2.funcErr.getD "")) }
        else fr.2.2
      let res := if qabs fr.2.1 < epsSnap cfg.prec then 0 else fr.2.1
      (res, st)

/-- The error state at program start (`last_error[256] = {0}` in both
modules). -/
def initEvalSt : EvalSt := { evalErr := none, funcErr := none }

/-- A concrete environment for evaluating oracle-free expressions: the
default 256-bit precision with all external routines stubbed to `0` (no
claim evaluated under `defaultCfg` ever consults an oracle). -/
def defaultCfg : EvalCfg :=
  { prec := 256, F1 := fun _ _ => 0, F2 := fun _ _ _ => 0, CC := fun _ _ => 0 }

/-- Parse a line and evaluate the resulting tree from a clean state, as
`repl_process_line` does; parse failures yield `none`. -/
def evalString (cfg : EvalCfg) (s : String) : Option (ℚ × EvalSt) :=
  match parseString s with
  | (some t, p) => if p.error_occurred then none else some (evaluator_eval cfg t initEvalSt)
  | (none, _) => none

/-- The result component of `functions_eval`, as a pure function of the
arguments (the error state is a write-only side channel). -/
def functions_eval_value (cfg : EvalCfg) (f : Func) (args : List ℚ) : ℚ :=
  if strict_domain_mode ∧ functions_check_domain f args then 0
  else if args.length ≠ functions_arity f then 0
  else
    match functions_domain_error f args with
    | some _ => 0
    | none => functions_value cfg f args

theorem functions_eval_fst (cfg : EvalCfg) (f : Func) (args : List ℚ)
    (st : EvalSt) :
    (functions_eval cfg f args st).2.1 = functions_eval_value cfg f args := by
  unfold functions_eval functions_eval_value
  split
  · rfl
  · split
    · rfl
    · split <;> rfl

/-- The numeric value the evaluator produces for a tree, as a pure
function of the tree (derived specification used to state the claims). -/
def evaluator_value (cfg : EvalCfg) : AST → ℚ
  | .num v _ => v
  | .constant name =>
    match constants_find_ci name with
    | some t => cfg.CC t (cfg.prec + CONSTANT_PRECISION_BOOST)
    | none => 0
  | .binop op l r =>
    let lv := evaluator_value cfg l
    let rv := evaluator_value cfg r
    match op with
    | .plus => lv + rv
    | .minus => lv - rv
    | .star => lv * rv
    | .slash => if rv = 0 then 0 else lv / rv
    | .caret => cfg.F2 .fpow lv rv
    | .beq => if lv = rv then 1 else 0
    | .bneq => if ¬ lv = rv then 1 else 0
    | .blt => if lv < rv then 1 else 0
    | .blte => if lv ≤ rv then 1 else 0
    | .bgt => if rv < lv then 1 else 0
    | .bgte => if rv ≤ lv then 1 else 0
  | .unary op x =>
    match op with
    | .uplus => evaluator_value cfg x
    | .uminus => -(evaluator_value cfg x)
  | .call1 f a =>
    let r := functions_eval_value cfg f [evaluator_value cfg a]
    if qabs r < epsSnap cfg.prec then 0 else r
  | .call2 f a b =>
    let r := functions_eval_value cfg f
      [evaluator_value cfg a, evaluator_value cfg b]
    if qabs r < epsSnap cfg.prec then 0 else r

theorem fst_ite_pair {α β : Type} {c : Prop} [Decidable c] (a b : α)
    (x y : β) : (if c then (a, x) else (b, y)).1 = if c then a else b := by
  split <;> rfl

/-- The value computed by `evaluator_eval` does not depend on the incoming
error state: it is the pure `evaluator_value` of the tree. -/
theorem evaluator_eval_fst (cfg : EvalCfg) :
    ∀ (t : AST) (st : EvalSt),
      (evaluator_eval cfg t st).1 = evaluator_value cfg t := by
  intro t
  induction t with
  | num v bi => intro st; simp [evaluator_eval, evaluator_value]
  | constant name =>
    intro st
    simp only [evaluator_eval, evaluator_value]
    cases constants_find_ci name <;> simp
  | binop op l r ihl ihr =>
    intro st
    simp only [evaluator_eval, evaluator_value,
      ihl { st with evalErr := none },
      ihr (evaluator_eval cfg l { st with evalErr := none }).2]
    cases op <;> (first | rfl | rw [fst_ite_pair])
  | unary op x ihx =>
    intro st
    simp only [evaluator_eval, evaluator_value, ihx { st with evalErr := none }]
    cases op <;> rfl
  | call1 f a iha =>
    intro st
    simp only [evaluator_eval, evaluator_value, functions_eval_fst,
      iha { st with evalErr := none }]
  | call2 f a b iha ihb =>
    intro st
    simp only [evaluator_eval, evaluator_value, functions_eval_fst,
      iha { st with evalErr := none },
      ihb (evaluator_eval cfg a { st with evalErr := none }).2]


/-! ## Claim theorems -/

/-- A value strictly below the default-precision snapping threshold, used
to exhibit the zero-snap contrast. -/
def tinyQ : ℚ := Rat.divInt 1 (((2 ^ 300 : ℕ) : ℤ))

theorem epsSnap_pos (prec : ℕ) : 0 < epsSnap prec := by
  rw [epsSnap, Rat.divInt_eq_div]
  positivity

theorem qabs_zero : qabs 0 = 0 := by decide

/-- Inputs longer than `MAX_INPUT_LENGTH` (1024) leave the unusable empty
lexer state (the `repl` rejects it up front as "Input too long"). -/
theorem lexer_init_oversized (input : List Char) (h : 1024 < input.length) :
    lexer_init input = ⟨[], 0⟩ := by
  simp [lexer_init, MAX_INPUT_LENGTH, h]

theorem nestedParens_len_1000 : (nestedParens 1000).data.length = 2001 := by
  show (List.replicate 1000 '(' ++ '1' :: List.replicate 1000 ')').length = 2001
  rw [List.length_append, List.length_cons, List.length_replicate,
    List.length_replicate]

theorem lexer_init_nested1000 :
    lexer_init (nestedParens 1000).data = ⟨[], 0⟩ :=
  lexer_init_oversized _ (by rw [nestedParens_len_1000]; decide)

/-- The parser state after the parser fails on the empty lexer (whose
first token is already `EOF`). -/
def emptyParseFail : Parser :=
  { lexer := ⟨[], 0⟩
    current_token := .teof
    previous_token := .tinvalid
    recursion_depth := 0
    max_depth := 100
    error_occurred := true }

/-- On the empty lexer the parser fails after descending the grammar once,
for any fuel of the form `k + 8`. -/
theorem parse_empty_lexer (k : ℕ) :
    parser_parse_expression (k + 8) (parser_init ⟨[], 0⟩) =
      (none, emptyParseFail) := rfl

theorem parse_empty_lexer_ge (n : ℕ) (h : 8 ≤ n) :
    parser_parse_expression n (parser_init ⟨[], 0⟩) =
      (none, emptyParseFail) := by
  obtain ⟨k, rfl⟩ : ∃ k, n = k + 8 := ⟨n - 8, by omega⟩
  exact parse_empty_lexer k

theorem parseFuel_ge (s : String) : 8 ≤ parseFuel s := by
  unfold parseFuel
  omega

/-- C1: the recursion-depth guard of `parser_parse_expression` is
ineffective.  The depth counter is incremented only in the public wrapper,
but the recursive descent runs through the `_impl` functions, which call
each other directly and never pass through the wrapper again, so nesting
is not counted.  An expression of 101 nested parentheses — static nesting
depth beyond `MAX_RECURSION_DEPTH = 100` — parses successfully with no
error and yields the literal `1`.  The spec's 1000-fold nested input does
fail, but only because its 2001 characters exceed the lexer's
1024-character input cap, which produces the empty lexer state and a parse
error at its immediate `EOF` token, not a depth-guard rejection. -/
theorem recursion_depth_guard_ineffective :
    (parseString (nestedParens 101)).1 = some (.num 1 true) ∧
    (parseString (nestedParens 101)).2.error_occurred = false ∧
    lexer_init (nestedParens 1000).data = ⟨[], 0⟩ ∧
    parseString (nestedParens 1000) = (none, emptyParseFail) ∧
    emptyParseFail.error_occurred = true := by
  refine ⟨by decide, by decide, lexer_init_nested1000, ?_, rfl⟩
  unfold parseString
  rw [lexer_init_nested1000]
  exact parse_empty_lexer_ge _ (parseFuel_ge _)

/-- C2 (counterexample): in the tree `(1/0) + 2` the right operand of the
division evaluates to zero, yet after the top-level evaluation the
last-error channel is empty (and the value is `2`): the recursive call on
the sibling subtree `2` cleared the recorded division-by-zero message. -/
theorem eval_divzero_message_lost :
    (evaluator_eval defaultCfg
      (.binop .plus (.binop .slash (.num 1 true) (.num 0 true)) (.num 2 true))
      initEvalSt).2.evalErr = none ∧
    (evaluator_eval defaultCfg
      (.binop .plus (.binop .slash (.num 1 true) (.num 0 true)) (.num 2 true))
      initEvalSt).1 = 2 := by
  decide

/-- C2 (amended): `evaluator_eval` clears the last-error buffer at the
start of every call, recursive calls included, so the division-by-zero
message survives the top-level call only when no evaluator call begins
after it is recorded.  In particular, when the division node is the
top-level node, evaluation completes, the division yields exactly zero
(never an infinity), and the last-error channel holds "Division by zero"
after the call. -/
theorem eval_divzero_at_root (cfg : EvalCfg) (a b : AST) (st : EvalSt)
    (h : evaluator_value cfg b = 0) :
    (evaluator_eval cfg (.binop .slash a b) st).1 = 0 ∧
    (evaluator_eval cfg (.binop .slash a b) st).2.evalErr =
      some "Division by zero" := by
  constructor <;>
  · simp only [evaluator_eval, evaluator_eval_fst, h]
    simp

theorem eval_divzero_at_root_witness :
    evaluator_value defaultCfg (.num 0 true) = 0 ∧
    (evaluator_eval defaultCfg (.binop .slash (.num 1 true) (.num 0 true))
      initEvalSt).1 = 0 ∧
    (evaluator_eval defaultCfg (.binop .slash (.num 1 true) (.num 0 true))
      initEvalSt).2.evalErr = some "Division by zero" :=
  ⟨by decide,
   (eval_divzero_at_root defaultCfg (.num 1 true) (.num 0 true) initEvalSt
     (by decide)).1,
   (eval_divzero_at_root defaultCfg (.num 1 true) (.num 0 true) initEvalSt
     (by decide)).2⟩

/-- C3: a `ConstantsRegistry` get never memoizes — `constants_get_by_type`
computes the value afresh and leaves the cache array untouched (its only
writer, `ensure_constant_precision`, has no callers), so after
`constants_get_by_name(result, "pi")` from the initial state,
`constants_is_cached("pi")` still returns false, contradicting both the
claim and the repository's own test
(`tests/test_clear_cached.c:60`, "Pi should be cached after computation"). -/
theorem constants_get_never_caches :
    (∀ (cc : ConstOracle) (name : String) (st : RegistryState),
      (constants_get_by_name cc name st).2 = st) ∧
    (∀ name : String, constants_is_cached name registry_init = false) ∧
    (∀ cc : ConstOracle,
      constants_is_cached "pi" ((constants_get_by_name cc "pi" registry_init).2)
        = false) := by
  refine ⟨?_, ?_, ?_⟩
  · intro cc name st
    unfold constants_get_by_name
    cases constants_find_ci name <;> simp [constants_get_by_type]
  · intro name
    unfold constants_is_cached
    cases constants_find_exact name <;>
      simp [constants_is_cached_by_type, registry_init]
  · intro cc
    unfold constants_get_by_name
    cases h : constants_find_ci "pi" <;>
      simp [constants_get_by_type, constants_is_cached,
        constants_is_cached_by_type, registry_init] <;>
      cases constants_find_exact "pi" <;>
      simp [constants_is_cached_by_type, registry_init]

theorem constants_get_never_caches_witness :
    (constants_get_by_name (fun _ _ => 0) "pi" registry_init).2 = registry_init ∧
    constants_is_cached "pi"
      ((constants_get_by_name (fun _ _ => 0) "pi" registry_init).2) = false :=
  ⟨constants_get_never_caches.1 (fun _ _ => 0) "pi" registry_init,
   constants_get_never_caches.2.2 (fun _ _ => 0)⟩

/-- C4: a function call whose argument violates the function's domain
precondition evaluates without crashing to the zero fallback value, and
the domain-error message is recorded in the function-dispatch error buffer
(`functions_get_last_error`), retrievable after the top-level evaluation;
concretely, `sqrt(-1)` and `log(0)` parse and evaluate to `0` with their
domain messages recorded (the evaluator's own channel stays empty because
`strict_mode` is off). -/
theorem function_domain_error_soft :
    (∀ (cfg : EvalCfg) (f : Func) (a : AST) (st : EvalSt) (msg : String),
      functions_domain_error f [evaluator_value cfg a] = some msg →
      (evaluator_eval cfg (.call1 f a) st).1 = 0 ∧
      (evaluator_eval cfg (.call1 f a) st).2.funcErr = some msg) ∧
    evalString defaultCfg "sqrt(-1)" =
      some (0, { evalErr := none,
                 funcErr := some "sqrt domain error: argument must be >= 0" }) ∧
    evalString defaultCfg "log(0)" =
      some (0, { evalErr := none,
                 funcErr := some "log domain error: argument must be > 0" }) := by
  refine ⟨?_, by decide, by decide⟩
  intro cfg f a st msg h
  have harity : functions_arity f = 1 := by
    cases f <;> first
      | rfl
      | simp [functions_domain_error] at h
  have hfe : functions_eval cfg f [(evaluator_eval cfg a
      { st with evalErr := none }).1] (evaluator_eval cfg a
      { st with evalErr := none }).2 =
      (false, 0, { (evaluator_eval cfg a { st with evalErr := none }).2 with
        funcErr := some msg }) := by
    rw [evaluator_eval_fst]
    unfold functions_eval
    rw [if_neg (by simp [strict_domain_mode])]
    rw [if_neg (by simp [harity])]
    rw [h]
  constructor <;>
  · simp only [evaluator_eval, hfe]
    simp [strict_mode, qabs_zero, epsSnap_pos]

theorem function_domain_error_soft_witness :
    functions_domain_error .fsqrt
      [evaluator_value defaultCfg (.unary .uminus (.num 1 true))] =
      some "sqrt domain error: argument must be >= 0" ∧
    (evaluator_eval defaultCfg
      (.call1 .fsqrt (.unary .uminus (.num 1 true))) initEvalSt).1 = 0 ∧
    (evaluator_eval defaultCfg
      (.call1 .fsqrt (.unary .uminus (.num 1 true))) initEvalSt).2.funcErr =
      some "sqrt domain error: argument must be >= 0" :=
  ⟨by decide,
   (function_domain_error_soft.1 defaultCfg .fsqrt
     (.unary .uminus (.num 1 true)) initEvalSt
     "sqrt domain error: argument must be >= 0" (by decide)).1,
   (function_domain_error_soft.1 defaultCfg .fsqrt
     (.unary .uminus (.num 1 true)) initEvalSt
     "sqrt domain error: argument must be >= 0" (by decide)).2⟩

/-- C7: when two primary expressions are adjacent with no explicit
operator and the (previous, current) token pair matches a listed pattern,
the parser synthesizes a multiplication without consuming a token:
`2(3+4)` evaluates to 14, `(2+1)(3+1)` to 12, and `2pi` parses to a
multiplication of `2` and the constant `pi` — in each case the token
stream itself contains no `*` token. -/
theorem implicit_multiplication_cases :
    evalString defaultCfg "2(3+4)" = some (14, initEvalSt) ∧
    evalString defaultCfg "(2+1)(3+1)" = some (12, initEvalSt) ∧
    (parseString "2pi").1 =
      some (.binop .star (.num 2 true) (.constant "pi")) ∧
    (parseString "2pi").2.error_occurred = false ∧
    (tokenize "2(3+4)").all (fun t => t ≠ .tstar) = true ∧
    (tokenize "(2+1)(3+1)").all (fun t => t ≠ .tstar) = true ∧
    (tokenize "2pi").all (fun t => t ≠ .tstar) = true := by
  decide

/-- C8 (counterexample): a dangling exponent sign does not produce an
`Invalid` token: `1e+` lexes to the number `1`, the constant `e` and the
operator `+`, with no `Invalid` token in the stream. -/
theorem lexer_dangling_exponent_not_invalid :
    tokenize "1e+" = [.tint "1", .tconstant "e", .tplus] ∧
    (tokenize "1e+").all (fun t => t ≠ .tinvalid) = true := by
  decide

/-- C8 (amended): `lexer_get_next_token` always returns a token.  Multiple
decimal points, a lone `.` and unknown characters yield an explicit
`Invalid` token; a dangling exponent sign however does not — the exponent
suffix is only consumed when digits follow, so in `1e+` the `e` is lexed
as an identifier resolving to the constant `e`.  Input longer than the
1024-character maximum yields the unusable empty lexer state, and at end
of input the `EOF` token is returned persistently with the state
unchanged. -/
theorem lexer_malformed_inputs :
    tokenize "1.2.3" = [.tinvalid, .tfloat ".3"] ∧
    tokenize "." = [.tinvalid] ∧
    tokenize "@" = [.tinvalid] ∧
    tokenize "1e+" = [.tint "1", .tconstant "e", .tplus] ∧
    (∀ input : List Char, 1024 < input.length → lexer_init input = ⟨[], 0⟩) ∧
    (∀ l : Lexer, l.text.length ≤ l.pos →
      lexer_get_next_token l = (.teof, l)) := by
  refine ⟨by decide, by decide, by decide, by decide, ?_, ?_⟩
  · intro input h
    simp [lexer_init, MAX_INPUT_LENGTH, h]
  · intro l h
    have hc : l.currentChar = '\x00' := List.getD_eq_default _ _ h
    unfold lexer_get_next_token lexer_skip_whitespace
    rw [Nat.sub_eq_zero_of_le h]
    simp [lexer_skip_whitespace_fuel, hc]

theorem lexer_malformed_inputs_witness :
    1024 < (List.replicate 1025 'a').length ∧
    lexer_init (List.replicate 1025 'a') = ⟨[], 0⟩ ∧
    (⟨['a'], 1⟩ : Lexer).text.length ≤ 1 ∧
    lexer_get_next_token ⟨['a'], 1⟩ = (.teof, ⟨['a'], 1⟩) :=
  ⟨by simp, lexer_malformed_inputs.2.2.2.2.1 _ (by simp), by decide,
   lexer_malformed_inputs.2.2.2.2.2 ⟨['a'], 1⟩ (by decide)⟩

/-- C9: after a FunctionCall result is rounded to the current precision,
the evaluator returns exactly zero when its magnitude is strictly below
`2^-(precision+10)` and the rounded result unchanged otherwise; the snap
applies to FunctionCall nodes only — a BinaryOp or UnaryOp result of the
same tiny magnitude is returned unchanged. -/
theorem function_result_zero_snap :
    (∀ (cfg : EvalCfg) (f : Func) (a : AST) (st : EvalSt),
      (qabs (functions_eval_value cfg f [evaluator_value cfg a]) <
          epsSnap cfg.prec →
        (evaluator_eval cfg (.call1 f a) st).1 = 0) ∧
      (¬ qabs (functions_eval_value cfg f [evaluator_value cfg a]) <
          epsSnap cfg.prec →
        (evaluator_eval cfg (.call1 f a) st).1 =
          functions_eval_value cfg f [evaluator_value cfg a])) ∧
    (∀ (cfg : EvalCfg) (f : Func) (a b : AST) (st : EvalSt),
      (qabs (functions_eval_value cfg f
          [evaluator_value cfg a, evaluator_value cfg b]) < epsSnap cfg.prec →
        (evaluator_eval cfg (.call2 f a b) st).1 = 0) ∧
      (¬ qabs (functions_eval_value cfg f
          [evaluator_value cfg a, evaluator_value cfg b]) < epsSnap cfg.prec →
        (evaluator_eval cfg (.call2 f a b) st).1 =
          functions_eval_value cfg f
            [evaluator_value cfg a, evaluator_value cfg b])) ∧
    qabs tinyQ < epsSnap 256 ∧ tinyQ ≠ 0 ∧
    (evaluator_eval defaultCfg (.call1 .fabs (.num tinyQ false))
      initEvalSt).1 = 0 ∧
    (evaluator_eval defaultCfg
      (.binop .plus (.num tinyQ false) (.num 0 true)) initEvalSt).1 = tinyQ ∧
    (evaluator_eval defaultCfg (.unary .uminus (.num tinyQ false))
      initEvalSt).1 = -tinyQ := by
  refine ⟨?_, ?_, by decide, by decide, by decide, by decide, by decide⟩
  · intro cfg f a st
    rw [evaluator_eval_fst]
    simp only [evaluator_value]
    exact ⟨fun h => if_pos h, fun h => if_neg h⟩
  · intro cfg f a b st
    rw [evaluator_eval_fst]
    simp only [evaluator_value]
    exact ⟨fun h => if_pos h, fun h => if_neg h⟩

theorem function_result_zero_snap_witness :
    qabs (functions_eval_value defaultCfg .fabs
      [evaluator_value defaultCfg (.num tinyQ false)]) < epsSnap 256 ∧
    (evaluator_eval defaultCfg (.call1 .fabs (.num tinyQ false))
      initEvalSt).1 = 0 ∧
    ¬ qabs (functions_eval_value defaultCfg .fabs
      [evaluator_value defaultCfg (.num 1 true)]) < epsSnap 256 ∧
    (evaluator_eval defaultCfg (.call1 .fabs (.num 1 true)) initEvalSt).1 =
      functions_eval_value defaultCfg .fabs
        [evaluator_value defaultCfg (.num 1 true)] :=
  ⟨by decide,
   ((function_result_zero_snap.1 defaultCfg .fabs (.num tinyQ false)
     initEvalSt).1 (by decide)),
   by decide,
   ((function_result_zero_snap.1 defaultCfg .fabs (.num 1 true)
     initEvalSt).2 (by decide))⟩

/-- C10: a `ConstantsRegistry` get always recomputes the constant from
scratch at the precision in force at the moment of the call plus the 128
guard bits (then rounds down), so after any interaction history the
returned value is the fresh value at the current precision and never a
stale cached one — the result is independent of the cache contents, even
though `set_precision` performs no cache invalidation. -/
theorem constants_fresh_at_current_precision :
    (∀ (cc : ConstOracle) (ops : List RegistryOp) (name : String)
        (t : ConstantType),
      constants_find_ci name = some t →
      constants_get_by_name cc name (registry_run cc ops registry_init) =
        (some (cc t ((registry_run cc ops registry_init).prec +
          CONSTANT_PRECISION_BOOST)),
         registry_run cc ops registry_init)) ∧
    (∀ (p : ℤ) (st : RegistryState), (set_precision p st).cache = st.cache) ∧
    (∀ (cc : ConstOracle) (name : String) (st : RegistryState)
        (f : ConstantType → CachedConstant),
      (constants_get_by_name cc name { st with cache := f }).1 =
        (constants_get_by_name cc name st).1) := by
  refine ⟨?_, ?_, ?_⟩
  · intro cc ops name t h
    unfold constants_get_by_name
    rw [h]
    rfl
  · intro p st
    rfl
  · intro cc name st f
    unfold constants_get_by_name
    cases constants_find_ci name <;> rfl

theorem constants_fresh_at_current_precision_witness :
    constants_find_ci "pi" = some .cpi ∧
    constants_get_by_name (fun _ _ => 0) "pi"
      (registry_run (fun _ _ => 0) [.setPrecision 300] registry_init) =
      (some 0, registry_run (fun _ _ => 0) [.setPrecision 300] registry_init) :=
  ⟨by decide,
   constants_fresh_at_current_precision.1 (fun _ _ => 0) [.setPrecision 300]
     "pi" .cpi (by decide)⟩

end CalcCore
namespace CalcCore

/-! ## Symbolic simplifier (`src/core/symbolic.c`)

`mpfr` idealisations in this section: number payloads are exact rationals;
`mpfr_sprintf "%.0Rf"` (used whenever the simplifier folds a numeric
result) is rounding to the nearest integer with ties to even, and
`mpfr_get_ui` under the global `MPFR_RNDN` rounds the same way and clamps
into `[0, ULONG_MAX]` with `ULONG_MAX = 2^64 - 1`; `mpfr_integer_p` /
the `mpfr_sqrt`-integrality test are exact on rationals.  The simplifier's
`last_error` buffer (set only by its dead division-by-zero rule) is not
modelled; no claim mentions it. -/

/-- Round to the nearest integer, ties to even: `mpfr_sprintf "%.0Rf"`
and `mpfr_get_ui` under `MPFR_RNDN`. -/
def rndHalfEven (q : ℚ) : ℤ :=
  let f := Int.fdiv q.num (q.den : ℤ)
  let frac := q - (f : ℚ)
  if frac < Rat.divInt 1 2 then f
  else if Rat.divInt 1 2 < frac then f + 1
  else if f % 2 = 0 then f else f + 1

/-- `mpfr_get_ui` (round with `MPFR_RNDN`, clamp into `[0, 2^64-1]`). -/
def getUi (q : ℚ) : ℕ :=
  let r := rndHalfEven q
  if r < 0 then 0 else min r.toNat (2 ^ 64 - 1)

/-- The `mpfr_sqrt`-then-`mpfr_integer_p` test of the sqrt rule: the
value is the square of a natural number (for a rational, `sqrt q` is an
integer exactly when `q = k²` for some `k : ℕ`; `mpfr_sqrt` of a negative
value is NaN, which is not an integer). -/
def sqrtIsInt (q : ℚ) : Bool :=
  q.den = 1 && 0 ≤ q.num &&
    Nat.sqrt q.num.toNat * Nat.sqrt q.num.toNat = q.num.toNat

/-- The largest-perfect-square-factor scan of the sqrt rule
(`for (i = 2; i*i <= n; i++) if (n % (i*i) == 0) largest_root = i`):
the last — hence largest — `i ∈ [2, √n]` with `i² ∣ n`, else `1`. -/
def largest_root (n : ℕ) : ℕ :=
  (List.range' 2 (Nat.sqrt n - 1)).foldl
    (fun acc i => if n % (i * i) = 0 then i else acc) 1

/-- `is_fraction` from `src/core/symbolic.c` (the `num`/`denom`
out-parameters become the returned pair). -/
def is_fraction : AST → Option (AST × AST)
  | .binop .slash l r => some (l, r)
  | _ => none

/-- A node with `type == NODE_FUNCTION && func_type == TOKEN_SQRT`,
yielding its `args[0]`. -/
def sqrt_arg : AST → Option AST
  | .call1 .fsqrt a => some a
  | .call2 .fsqrt a _ => some a
  | _ => none

/-- Both operands integer-flagged numbers (the integer-folding rules). -/
def int_pair : AST → AST → Option (ℚ × ℚ)
  | .num lv true, .num rv true => some (lv, rv)
  | _, _ => none

/-- Rule `(a×x) + x → (a+1)×x`: left operand `a × x` with `x`
structurally equal to the right operand. -/
def plus_collect_l (l r : AST) : Option (AST × AST) :=
  match l with
  | .binop .star a x => if symbolic_equals x r then some (a, x) else none
  | _ => none

/-- Rule `x + (b×x) → (1+b)×x`. -/
def plus_collect_r (l r : AST) : Option (AST × AST) :=
  match r with
  | .binop .star b y => if symbolic_equals l y then some (b, y) else none
  | _ => none

/-- Rule `(a×x) + (b×x) → (a+b)×x`. -/
def plus_collect_lr (l r : AST) : Option (AST × AST × AST) :=
  match l, r with
  | .binop .star a x, .binop .star b y =>
    if symbolic_equals x y then some (a, b, x) else none
  | _, _ => none

/-- Rules `(a×b) ÷ c → a` when `b == c`, else `→ b` when `a == c`. -/
def slash_cancel_num (l r : AST) : Option AST :=
  match l with
  | .binop .star a b =>
    if symbolic_equals b r then some a
    else if symbolic_equals a r then some b
    else none
  | _ => none

/-- Rules `c ÷ (a×b) → 1÷a` when `b == c`, else `→ 1÷b` when `a == c`;
yields the surviving denominator factor. -/
def slash_cancel_den (l r : AST) : Option AST :=
  match r with
  | .binop .star a b =>
    if symbolic_equals b l then some a
    else if symbolic_equals a l then some b
    else none
  | _ => none

def plus_operands : AST → Option (AST × AST)
  | .binop .plus a b => some (a, b)
  | _ => none

def minus_operands : AST → Option (AST × AST)
  | .binop .minus a b => some (a, b)
  | _ => none

/-- The exact-integer-division rule: both operands integer-flagged
numbers, divisor nonzero, quotient integral (`mpfr_integer_p` after
`mpfr_div`); the `"%.0Rf"` print of the integral quotient is exact. -/
def int_div_exact : AST → AST → Option ℚ
  | .num lv true, .num rv true =>
    if rv = 0 then none
    else if (lv / rv).den = 1 then some (lv / rv)
    else none
  | _, _ => none

/-- `simplify_function_rules`: the rule switch of
`symbolic_simplify_function` from `src/core/symbolic.c`, which inspects
only `args[0]`; `none` means fall through to rebuilding the call node. -/
def simplify_function_rules (f : Func) (arg : AST) : Option AST :=
  match f with
  | .fsin =>
    if symbolic_is_zero arg then some (.num 0 true)
    else if matches_constant arg "pi" then some (.num 0 true)
    else match is_fraction arg with
    | some (n, d) =>
      if matches_constant n "pi" && !symbolic_is_one d &&
          (match d with | .num dv _ => dv = 2 | _ => false) then
        some (.num 1 true)
      else none
    | none => none
  | .fcos =>
    if symbolic_is_zero arg then some (.num 1 true)
    else if matches_constant arg "pi" then some (.num (-1) true)
    else match is_fraction arg with
    | some (n, d) =>
      if matches_constant n "pi" &&
          (match d with | .num dv _ => dv = 2 | _ => false) then
        some (.num 0 true)
      else none
    | none => none
  | .ftan =>
    if symbolic_is_zero arg then some (.num 0 true)
    else if matches_constant arg "pi" then some (.num 0 true)
    else match is_fraction arg with
    | some (n, d) =>
      if matches_constant n "pi" &&
          (match d with | .num dv _ => dv = 4 | _ => false) then
        some (.num 1 true)
      else none
    | none => none
  | .flog =>
    if symbolic_is_one arg then some (.num 0 true)
    else if matches_constant arg "e" then some (.num 1 true)
    else none
  | .flog10 =>
    if symbolic_is_one arg then some (.num 0 true)
    else match arg with
    | .num v true => if v = 10 then some (.num 1 true) else none
    | _ => none
  | .fexp =>
    if symbolic_is_zero arg then some (.num 1 true)
    else if symbolic_is_one arg then some (.constant "e")
    else none
  | .fabs =>
    if symbolic_is_zero arg then some (.num 0 true)
    else match arg with
    | .num v bi =>
      if 0 ≤ v then some (.num v bi)
      else some (.num ((rndHalfEven (-v) : ℤ) : ℚ) bi)
    | _ => none
  | .fsqrt =>
    if symbolic_is_zero arg then some (.num 0 true)
    else if symbolic_is_one arg then some (.num 1 true)
    else match arg with
    | .num v true =>
      if sqrtIsInt v then some (.num ((Nat.sqrt v.num.toNat : ℕ) : ℚ) true)
      else
        let n := getUi v
        if 1 < n then
          let lr := largest_root n
          if 1 < lr then
            some (.binop .star (.num ((lr : ℕ) : ℚ) true)
              (.call1 .fsqrt (.num ((n / (lr * lr) : ℕ) : ℚ) true)))
          else none
        else none
    | _ => none
  | _ => none

/-- `symbolic_simplify_function` on a 1-element argument array. -/
def symbolic_simplify_function1 (f : Func) (a : AST) : AST :=
  (simplify_function_rules f a).getD (.call1 f a)

/-- `symbolic_simplify_function` on a 2-element argument array (the rule
switch looks only at `args[0]`; on fall-through the call is rebuilt). -/
def symbolic_simplify_function2 (f : Func) (a b : AST) : AST :=
  (simplify_function_rules f a).getD (.call2 f a b)

/-- `symbolic_simplify_unary`: "For now, just create the unary operation
node". -/
def symbolic_simplify_unary (op : UnOp) (x : AST) : AST := .unary op x

/-- Node count: the termination measure of the simplifier's recursion. -/
def nsize : AST → ℕ
  | .num _ _ => 1
  | .constant _ => 1
  | .binop _ l r => 1 + nsize l + nsize r
  | .unary _ x => 1 + nsize x
  | .call1 _ a => 1 + nsize a
  | .call2 _ a b => 1 + nsize a + nsize b

theorem nsize_pos (t : AST) : 1 ≤ nsize t := by
  cases t <;> simp [nsize] <;> omega

/-- Lexicographic descent on the 4-component simplifier measure. -/
theorem lex4_of {a1 a2 a3 a4 b1 b2 b3 b4 : ℕ}
    (h : a1 < b1 ∨ a1 = b1 ∧ (a2 < b2 ∨ a2 = b2 ∧ (a3 < b3 ∨ a3 = b3 ∧ a4 < b4))) :
    Prod.Lex (fun x y => x < y)
      (Prod.Lex (fun x y => x < y)
        (Prod.Lex (fun x y => x < y) (fun x y => x < y)))
      (a1, a2, a3, a4) (b1, b2, b3, b4) := by
  rcases h with h | ⟨rfl, h | ⟨rfl, h | ⟨rfl, h⟩⟩⟩
  · exact Prod.Lex.left _ _ h
  · exact Prod.Lex.right _ (Prod.Lex.left _ _ h)
  · exact Prod.Lex.right _ (Prod.Lex.right _ (Prod.Lex.left _ _ h))
  · exact Prod.Lex.right _ (Prod.Lex.right _ (Prod.Lex.right _ h))

theorem sqrt_arg_size {t a : AST} (h : sqrt_arg t = some a) :
    nsize a < nsize t := by
  cases t with
  | call1 f x =>
    cases f <;> simp [sqrt_arg] at h
    subst h
    simp [nsize]
  | call2 f x y =>
    cases f <;> simp [sqrt_arg] at h
    subst h
    have := nsize_pos y
    simp [nsize]
    omega
  | num v b => simp [sqrt_arg] at h
  | binop op l r => simp [sqrt_arg] at h
  | unary op x => simp [sqrt_arg] at h
  | constant n => simp [sqrt_arg] at h

theorem plus_collect_l_size {l r a x : AST}
    (h : plus_collect_l l r = some (a, x)) :
    nsize a + 1 < nsize l + nsize r := by
  have hr := nsize_pos r
  cases l with
  | binop op la lb =>
    cases op <;> simp [plus_collect_l] at h
    obtain ⟨-, rfl, rfl⟩ := h
    have := nsize_pos lb
    simp [nsize]
    omega
  | num v b => simp [plus_collect_l] at h
  | unary op z => simp [plus_collect_l] at h
  | call1 f z => simp [plus_collect_l] at h
  | call2 f z w => simp [plus_collect_l] at h
  | constant n => simp [plus_collect_l] at h

theorem plus_collect_r_size {l r b y : AST}
    (h : plus_collect_r l r = some (b, y)) :
    1 + nsize b < nsize l + nsize r := by
  have hl := nsize_pos l
  cases r with
  | binop op ra rb =>
    cases op <;> simp [plus_collect_r] at h
    obtain ⟨-, rfl, rfl⟩ := h
    have := nsize_pos rb
    simp [nsize]
    omega
  | num v bb => simp [plus_collect_r] at h
  | unary op z => simp [plus_collect_r] at h
  | call1 f z => simp [plus_collect_r] at h
  | call2 f z w => simp [plus_collect_r] at h
  | constant n => simp [plus_collect_r] at h

theorem plus_collect_lr_size {l r a b x : AST}
    (h : plus_collect_lr l r = some (a, b, x)) :
    nsize a + nsize b < nsize l + nsize r := by
  cases l with
  | binop op la lb =>
    cases r with
    | binop op2 ra rb =>
      cases op <;> cases op2 <;> simp [plus_collect_lr] at h
      obtain ⟨-, rfl, rfl, rfl⟩ := h
      have := nsize_pos lb
      have := nsize_pos rb
      simp [nsize]
      omega
    | num v bb => cases op <;> simp [plus_collect_lr] at h
    | unary o z => cases op <;> simp [plus_collect_lr] at h
    | call1 f z => cases op <;> simp [plus_collect_lr] at h
    | call2 f z w => cases op <;> simp [plus_collect_lr] at h
    | constant n => cases op <;> simp [plus_collect_lr] at h
  | num v bb => simp [plus_collect_lr] at h
  | unary o z => simp [plus_collect_lr] at h
  | call1 f z => simp [plus_collect_lr] at h
  | call2 f z w => simp [plus_collect_lr] at h
  | constant n => simp [plus_collect_lr] at h

theorem slash_cancel_den_size {l r t : AST}
    (h : slash_cancel_den l r = some t) :
    nsize t < nsize r := by
  unfold slash_cancel_den at h
  split at h
  all_goals try exact Option.noConfusion h
  next ra rb =>
    have ha := nsize_pos ra
    have hb := nsize_pos rb
    repeat' split at h
    all_goals cases h
    all_goals simp [nsize]
    all_goals omega

theorem plus_operands_size {l a b : AST}
    (h : plus_operands l = some (a, b)) :
    nsize a < nsize l ∧ nsize b < nsize l := by
  cases l with
  | binop op la lb =>
    cases op <;> simp [plus_operands] at h
    obtain ⟨rfl, rfl⟩ := h
    have := nsize_pos la
    have := nsize_pos lb
    simp [nsize]
    omega
  | num v bb => simp [plus_operands] at h
  | unary o z => simp [plus_operands] at h
  | call1 f z => simp [plus_operands] at h
  | call2 f z w => simp [plus_operands] at h
  | constant n => simp [plus_operands] at h

theorem minus_operands_size {l a b : AST}
    (h : minus_operands l = some (a, b)) :
    nsize a < nsize l ∧ nsize b < nsize l := by
  cases l with
  | binop op la lb =>
    cases op <;> simp [minus_operands] at h
    obtain ⟨rfl, rfl⟩ := h
    have := nsize_pos la
    have := nsize_pos lb
    simp [nsize]
    omega
  | num v bb => simp [minus_operands] at h
  | unary o z => simp [minus_operands] at h
  | call1 f z => simp [minus_operands] at h
  | call2 f z w => simp [minus_operands] at h
  | constant n => simp [minus_operands] at h

/-- Rank of a binary operator in the simplifier's recursion: every
recursive rewrite strictly descends in the lexicographic measure
`(opRank, size component, numerator size, wrapper phase)`. -/
def opRank : BinOp → ℕ
  | .slash => 3
  | .plus => 2
  | .minus => 2
  | .star => 1
  | _ => 0

mutual

/-- `symbolic_simplify_binop` from `src/core/symbolic.c`: the
commutative-canonicalisation swap, then the rewrite rules. -/
def symbolic_simplify_binop (op : BinOp) (l r : AST) : AST :=
  if h : is_commutative op ∧ 0 < node_compare l r then
    simplify_binop_rules op r l
  else
    simplify_binop_rules op l r
termination_by
  (opRank op, if op = .slash then nsize r else nsize l + nsize r,
   if op = .slash then nsize l else 0, 1)
decreasing_by
  · apply lex4_of
    obtain ⟨hc, -⟩ := h
    cases op <;> simp_all [is_commutative, opRank] <;> omega
  · apply lex4_of
    omega

/-- The rule chain of `symbolic_simplify_binop` (operands already in
canonical order). -/
def simplify_binop_rules (op : BinOp) (l r : AST) : AST :=
  match op with
  | .plus =>
    if symbolic_is_zero r then l
    else if symbolic_is_zero l then r
    else match int_pair l r with
    | some (lv, rv) => .num ((rndHalfEven (lv + rv) : ℤ) : ℚ) true
    | none =>
    if symbolic_equals l r then
      symbolic_simplify_binop .star (.num 2 true) l
    else match hm : plus_collect_l l r with
    | some (a, x) =>
      symbolic_simplify_binop .star
        (symbolic_simplify_binop .plus a (.num 1 true)) x
    | none =>
    match hm : plus_collect_r l r with
    | some (b, y) =>
      symbolic_simplify_binop .star
        (symbolic_simplify_binop .plus (.num 1 true) b) y
    | none =>
    match hm : plus_collect_lr l r with
    | some (a, b, x) =>
      symbolic_simplify_binop .star
        (symbolic_simplify_binop .plus a b) (symbolic_clone x)
    | none => .binop .plus l r
  | .minus =>
    if symbolic_is_zero r then l
    else if symbolic_equals l r then .num 0 true
    else .binop .minus l r
  | .star =>
    if symbolic_is_zero l || symbolic_is_zero r then .num 0 true
    else if symbolic_is_one r then l
    else if symbolic_is_one l then r
    else match int_pair l r with
    | some (lv, rv) => .num ((rndHalfEven (lv * rv) : ℤ) : ℚ) true
    | none =>
    match hm : sqrt_arg l, hm2 : sqrt_arg r with
    | some a, some b =>
      symbolic_simplify_function1 .fsqrt
        (symbolic_simplify_binop .star (symbolic_clone a) (symbolic_clone b))
    | _, _ => .binop .star l r
  | .slash =>
    if symbolic_is_zero r then .num 0 true
    else if symbolic_is_one r then l
    else if symbolic_equals l r && !symbolic_is_zero l then .num 1 true
    else if symbolic_is_zero l then .num 0 true
    else match slash_cancel_num l r with
    | some t => t
    | none =>
    match hm : slash_cancel_den l r with
    | some t => symbolic_simplify_binop .slash (.num 1 true) t
    | none =>
    match hm : plus_operands l with
    | some (a, b) =>
      symbolic_simplify_binop .plus
        (symbolic_simplify_binop .slash (symbolic_clone a) (symbolic_clone r))
        (symbolic_simplify_binop .slash (symbolic_clone b) (symbolic_clone r))
    | none =>
    match hm : minus_operands l with
    | some (a, b) =>
      symbolic_simplify_binop .minus
        (symbolic_simplify_binop .slash (symbolic_clone a) (symbolic_clone r))
        (symbolic_simplify_binop .slash (symbolic_clone b) (symbolic_clone r))
    | none =>
    match int_div_exact l r with
    | some q => .num q true
    | none =>
    match hm : sqrt_arg r with
    | some b =>
      symbolic_simplify_binop .slash
        (symbolic_simplify_binop .star l (symbolic_clone r))
        (symbolic_clone b)
    | none => .binop .slash l r
  | .caret =>
    if symbolic_is_zero r then .num 1 true
    else if symbolic_is_one r then l
    else if symbolic_is_zero l then .num 0 true
    else if symbolic_is_one l then .num 1 true
    else .binop .caret l r
  | op => .binop op l r
termination_by
  (opRank op, if op = .slash then nsize r else nsize l + nsize r,
   if op = .slash then nsize l else 0, 0)
decreasing_by
  all_goals apply lex4_of
  all_goals
    first
      | (have H := plus_collect_l_size hm
         simp_all [opRank, nsize, symbolic_clone] <;> omega)
      | (have H := plus_collect_r_size hm
         simp_all [opRank, nsize, symbolic_clone] <;> omega)
      | (have H := plus_collect_lr_size hm
         simp_all [opRank, nsize, symbolic_clone] <;> omega)
      | (have H1 := sqrt_arg_size hm
         have H2 := sqrt_arg_size hm2
         simp_all [opRank, nsize, symbolic_clone] <;> omega)
      | (have H := slash_cancel_den_size hm
         simp_all [opRank, nsize, symbolic_clone] <;> omega)
      | (have H := plus_operands_size hm
         simp_all [opRank, nsize, symbolic_clone] <;> omega)
      | (have H := minus_operands_size hm
         simp_all [opRank, nsize, symbolic_clone] <;> omega)
      | (have H := sqrt_arg_size hm
         simp_all [opRank, nsize, symbolic_clone] <;> omega)
      | (simp_all [opRank, nsize, symbolic_clone] <;> omega)

end

/-- `symbolic_eval` from `src/core/symbolic.c` (numbers and constants are
cloned; composite nodes recursively simplify their children and then try
the node-local rules). -/
def symbolic_eval : AST → AST
  | .num v bi => .num v bi
  | .constant n => .constant n
  | .binop op l r =>
    symbolic_simplify_binop op (symbolic_eval l) (symbolic_eval r)
  | .unary op x => symbolic_simplify_unary op (symbolic_eval x)
  | .call1 f a => symbolic_simplify_function1 f (symbolic_eval a)
  | .call2 f a b =>
    symbolic_simplify_function2 f (symbolic_eval a) (symbolic_eval b)

/-- `mpfr_cmp` antisymmetry. -/
theorem qcmp_antisymm (a b : ℚ) : qcmp b a = -qcmp a b := by
  unfold qcmp
  rcases lt_trichotomy a b with h | rfl | h
  · simp [h, asymm h]
  · simp
  · simp [h, asymm h]

/-- `strcmp` antisymmetry. -/
theorem strcmpInt_antisymm (a b : String) : strcmpInt b a = -strcmpInt a b := by
  unfold strcmpInt
  rcases lt_trichotomy a b with h | rfl | h
  · simp [h, asymm h]
  · simp
  · simp [h, asymm h]

/-- `node_compare` is antisymmetric: comparing in the opposite order
flips the sign.  (The C function returns enum-index differences, which
negate exactly.) -/
theorem node_compare_antisymm (a : AST) :
    ∀ b : AST, node_compare b a = -node_compare a b := by
  induction a with
  | num v bi =>
    intro b
    cases b with
    | num w bj => exact qcmp_antisymm v w
    | binop o l2 r2 => rfl
    | unary o x => rfl
    | call1 g y => rfl
    | call2 g y z => rfl
    | constant m => rfl
  | constant n =>
    intro b
    cases b with
    | constant m => exact strcmpInt_antisymm n m
    | num w bj => rfl
    | binop o l2 r2 => rfl
    | unary o x => rfl
    | call1 g y => rfl
    | call2 g y z => rfl
  | binop op l r ihl ihr =>
    intro b
    cases b with
    | binop op2 l2 r2 =>
      show (if op2.tokenIndex ≠ op.tokenIndex then op2.tokenIndex - op.tokenIndex
            else if node_compare l2 l ≠ 0 then node_compare l2 l
            else node_compare r2 r)
         = -(if op.tokenIndex ≠ op2.tokenIndex then op.tokenIndex - op2.tokenIndex
            else if node_compare l l2 ≠ 0 then node_compare l l2
            else node_compare r r2)
      by_cases hop : op.tokenIndex = op2.tokenIndex
      · rw [if_neg (show ¬ op2.tokenIndex ≠ op.tokenIndex by omega),
          if_neg (show ¬ op.tokenIndex ≠ op2.tokenIndex by omega)]
        by_cases hl : node_compare l l2 = 0
        · have hl2 : node_compare l2 l = 0 := by rw [ihl l2, hl]; rfl
          rw [if_neg (show ¬ node_compare l2 l ≠ 0 by omega),
            if_neg (show ¬ node_compare l l2 ≠ 0 by omega), ihr r2]
        · have hl2 : node_compare l2 l ≠ 0 := by rw [ihl l2]; omega
          rw [if_pos hl2, if_pos hl, ihl l2]
      · rw [if_pos (show op2.tokenIndex ≠ op.tokenIndex by omega),
          if_pos (show op.tokenIndex ≠ op2.tokenIndex by omega)]
        omega
    | num w bj => rfl
    | unary o x => rfl
    | call1 g y => rfl
    | call2 g y z => rfl
    | constant m => rfl
  | unary op x ihx =>
    intro b
    cases b with
    | unary op2 y =>
      show (if op2.tokenIndex ≠ op.tokenIndex then op2.tokenIndex - op.tokenIndex
            else node_compare y x)
         = -(if op.tokenIndex ≠ op2.tokenIndex then op.tokenIndex - op2.tokenIndex
            else node_compare x y)
      by_cases hop : op.tokenIndex = op2.tokenIndex
      · rw [if_neg (show ¬ op2.tokenIndex ≠ op.tokenIndex by omega),
          if_neg (show ¬ op.tokenIndex ≠ op2.tokenIndex by omega), ihx y]
      · rw [if_pos (show op2.tokenIndex ≠ op.tokenIndex by omega),
          if_pos (show op.tokenIndex ≠ op2.tokenIndex by omega)]
        omega
    | num w bj => rfl
    | binop o l2 r2 => rfl
    | call1 g y => rfl
    | call2 g y z => rfl
    | constant m => rfl
  | call1 f x ihx =>
    intro b
    cases b with
    | call1 g y =>
      show (if g.tokenIndex ≠ f.tokenIndex then g.tokenIndex - f.tokenIndex
            else node_compare y x)
         = -(if f.tokenIndex ≠ g.tokenIndex then f.tokenIndex - g.tokenIndex
            else node_compare x y)
      by_cases hf : f.tokenIndex = g.tokenIndex
      · rw [if_neg (show ¬ g.tokenIndex ≠ f.tokenIndex by omega),
          if_neg (show ¬ f.tokenIndex ≠ g.tokenIndex by omega), ihx y]
      · rw [if_pos (show g.tokenIndex ≠ f.tokenIndex by omega),
          if_pos (show f.tokenIndex ≠ g.tokenIndex by omega)]
        omega
    | call2 g y z =>
      show (if g.tokenIndex ≠ f.tokenIndex then g.tokenIndex - f.tokenIndex
            else (1 : ℤ))
         = -(if f.tokenIndex ≠ g.tokenIndex then f.tokenIndex - g.tokenIndex
            else (-1 : ℤ))
      by_cases hf : f.tokenIndex = g.tokenIndex
      · rw [if_neg (show ¬ g.tokenIndex ≠ f.tokenIndex by omega),
          if_neg (show ¬ f.tokenIndex ≠ g.tokenIndex by omega)]
        decide
      · rw [if_pos (show g.tokenIndex ≠ f.tokenIndex by omega),
          if_pos (show f.tokenIndex ≠ g.tokenIndex by omega)]
        omega
    | num w bj => rfl
    | binop o l2 r2 => rfl
    | unary o y => rfl
    | constant m => rfl
  | call2 f x1 x2 ih1 ih2 =>
    intro b
    cases b with
    | call2 g y1 y2 =>
      show (if g.tokenIndex ≠ f.tokenIndex then g.tokenIndex - f.tokenIndex
            else if node_compare y1 x1 ≠ 0 then node_compare y1 x1
            else node_compare y2 x2)
         = -(if f.tokenIndex ≠ g.tokenIndex then f.tokenIndex - g.tokenIndex
            else if node_compare x1 y1 ≠ 0 then node_compare x1 y1
            else node_compare x2 y2)
      by_cases hf : f.tokenIndex = g.tokenIndex
      · rw [if_neg (show ¬ g.tokenIndex ≠ f.tokenIndex by omega),
          if_neg (show ¬ f.tokenIndex ≠ g.tokenIndex by omega)]
        by_cases h1 : node_compare x1 y1 = 0
        · have h2 : node_compare y1 x1 = 0 := by rw [ih1 y1, h1]; rfl
          rw [if_neg (show ¬ node_compare y1 x1 ≠ 0 by omega),
            if_neg (show ¬ node_compare x1 y1 ≠ 0 by omega), ih2 y2]
        · have h2 : node_compare y1 x1 ≠ 0 := by rw [ih1 y1]; omega
          rw [if_pos h2, if_pos h1, ih1 y1]
      · rw [if_pos (show g.tokenIndex ≠ f.tokenIndex by omega),
          if_pos (show f.tokenIndex ≠ g.tokenIndex by omega)]
        omega
    | call1 g y =>
      show (if g.tokenIndex ≠ f.tokenIndex then g.tokenIndex - f.tokenIndex
            else (-1 : ℤ))
         = -(if f.tokenIndex ≠ g.tokenIndex then f.tokenIndex - g.tokenIndex
            else (1 : ℤ))
      by_cases hf : f.tokenIndex = g.tokenIndex
      · rw [if_neg (show ¬ g.tokenIndex ≠ f.tokenIndex by omega),
          if_neg (show ¬ f.tokenIndex ≠ g.tokenIndex by omega)]
      · rw [if_pos (show g.tokenIndex ≠ f.tokenIndex by omega),
          if_pos (show f.tokenIndex ≠ g.tokenIndex by omega)]
        omega
    | num w bj => rfl
    | binop o l2 r2 => rfl
    | unary o y => rfl
    | constant m => rfl

/-- Well-formed number payloads: an integer-flagged number node holds an
integral value.  The parser only creates integer-flagged nodes from pure
digit strings, and every simplifier rule preserves the property. -/
def numOKb : AST → Bool
  | .num v i => !i || v.den == 1
  | .binop _ l r => numOKb l && numOKb r
  | .unary _ x => numOKb x
  | .call1 _ a => numOKb a
  | .call2 _ a b => numOKb a && numOKb b
  | .constant _ => true

/-- Hereditarily simplified: every subtree is a fixed point of its own
node-local simplification step.  `symbolic_eval` produces exactly such
trees, and on them it is the identity. -/
def HSb : AST → Bool
  | .num _ _ => true
  | .constant _ => true
  | .binop op l r => HSb l && HSb r &&
      decide (symbolic_simplify_binop op l r = .binop op l r)
  | .unary _ x => HSb x
  | .call1 f a => HSb a && (simplify_function_rules f a).isNone
  | .call2 f a b => HSb a && HSb b && (simplify_function_rules f a).isNone

/-- On a hereditarily simplified tree, `symbolic_eval` is the identity. -/
theorem HSb_fix {t : AST} (h : HSb t = true) : symbolic_eval t = t := by
  induction t with
  | num v bi => rfl
  | constant n => rfl
  | binop op l r ihl ihr =>
    simp only [HSb, Bool.and_eq_true, decide_eq_true_eq] at h
    obtain ⟨⟨hl, hr⟩, hfix⟩ := h
    simp only [symbolic_eval, ihl hl, ihr hr]
    exact hfix
  | unary op x ihx =>
    simp only [HSb] at h
    simp only [symbolic_eval, symbolic_simplify_unary, ihx h]
  | call1 f a iha =>
    simp only [HSb, Bool.and_eq_true, Option.isNone_iff_eq_none] at h
    obtain ⟨ha, hnone⟩ := h
    simp only [symbolic_eval, symbolic_simplify_function1, iha ha, hnone,
      Option.getD_none]
  | call2 f a b iha ihb =>
    simp only [HSb, Bool.and_eq_true, Option.isNone_iff_eq_none] at h
    obtain ⟨⟨ha, hb⟩, hnone⟩ := h
    simp only [symbolic_eval, symbolic_simplify_function2, iha ha, ihb hb,
      hnone, Option.getD_none]

/-- A rational with denominator 1 is the cast of its numerator. -/
theorem q_eq_num_of_den_one {q : ℚ} (h : q.den = 1) : ((q.num : ℤ) : ℚ) = q := by
  conv_rhs => rw [← Rat.num_div_den q]
  rw [h]
  simp

/-- Rounding an integral rational is exact. -/
theorem rndHalfEven_int {q : ℚ} (h : q.den = 1) : rndHalfEven q = q.num := by
  unfold rndHalfEven
  rw [h]
  simp only [Int.natCast_one, Int.fdiv_one]
  rw [q_eq_num_of_den_one h, sub_self]
  rw [if_pos (by decide)]

/-- `mpfr_get_ui` on an integral nonnegative rational: clamp at
`ULONG_MAX`. -/
theorem getUi_int {q : ℚ} (h : q.den = 1) (h0 : 0 ≤ q.num) :
    getUi q = min q.num.toNat (2 ^ 64 - 1) := by
  unfold getUi
  rw [rndHalfEven_int h]
  rw [if_neg (by omega)]

theorem largest_root_spec (n : ℕ) :
    largest_root n = 1 ∨
      (2 ≤ largest_root n ∧ largest_root n * largest_root n ∣ n) := by
  unfold largest_root
  generalize Nat.sqrt n - 1 = m
  induction m with
  | zero => left; rfl
  | succ m ih =>
    rw [List.range'_concat, List.foldl_append]
    simp only [List.foldl_cons, List.foldl_nil]
    split
    · right
      refine ⟨by omega, Nat.dvd_of_mod_eq_zero (by assumption)⟩
    · exact ih

theorem largest_root_max {n : ℕ} (i : ℕ) (h2 : 2 ≤ i) (hle : i ≤ Nat.sqrt n)
    (hd : n % (i * i) = 0) : i ≤ largest_root n := by
  unfold largest_root
  have hi : i < 2 + (Nat.sqrt n - 1) := by omega
  generalize (Nat.sqrt n - 1) = m at hi
  induction m with
  | zero => omega
  | succ m ih =>
    rw [List.range'_concat, List.foldl_append]
    simp only [List.foldl_cons, List.foldl_nil, one_mul]
    by_cases hit : n % ((2 + m) * (2 + m)) = 0
    · rw [if_pos hit]
      omega
    · rw [if_neg hit]
      have hne : i ≠ 2 + m := by
        rintro rfl
        exact hit hd
      exact ih (by omega)

theorem largest_root_squarefree_rem {n : ℕ} (hn : 0 < n)
    (hlr : 1 < largest_root n) {j : ℕ} (hj : 2 ≤ j) :
    ¬ j * j ∣ n / (largest_root n * largest_root n) := by
  intro hdvd
  set lr := largest_root n with hlrdef
  have hd : lr * lr ∣ n := ((largest_root_spec n).resolve_left (by omega)).2
  obtain ⟨c, hc⟩ := hd
  have hlp : 0 < lr := by omega
  have hpos : 0 < lr * lr := by positivity
  have hcq : n / (lr * lr) = c := by
    rw [hc]
    exact Nat.mul_div_cancel_left c hpos
  rw [hcq] at hdvd
  obtain ⟨k, hk⟩ := hdvd
  have h1 : (j * lr) * (j * lr) ∣ n := ⟨k, by rw [hc, hk]; ring⟩
  have hsq : j * lr ≤ Nat.sqrt n := by
    rw [Nat.le_sqrt]
    exact Nat.le_of_dvd hn h1
  have h2jl : 2 ≤ j * lr := by
    calc 2 ≤ j := hj
    _ ≤ j * lr := Nat.le_mul_of_pos_right j hlp
  have h3 : j * lr ≤ lr :=
    largest_root_max _ h2jl hsq (Nat.mod_eq_zero_of_dvd h1)
  have hmul : 2 * lr ≤ j * lr := Nat.mul_le_mul_right _ hj
  omega

theorem largest_root_eq_one {n : ℕ} (h : ∀ j, 2 ≤ j → ¬ j * j ∣ n) :
    largest_root n = 1 := by
  rcases largest_root_spec n with h1 | ⟨h2, h3⟩
  · exact h1
  · exact absurd h3 (h _ h2)

theorem rem_not_square {n : ℕ} (hn : 0 < n) (hlr : 1 < largest_root n)
    (hrem : 1 < n / (largest_root n * largest_root n)) :
    ¬ Nat.sqrt (n / (largest_root n * largest_root n)) *
        Nat.sqrt (n / (largest_root n * largest_root n)) =
      n / (largest_root n * largest_root n) := by
  intro hsq
  have hk2 : 2 ≤ Nat.sqrt (n / (largest_root n * largest_root n)) := by
    by_contra hlt
    push_neg at hlt
    have hb : Nat.sqrt (n / (largest_root n * largest_root n)) *
        Nat.sqrt (n / (largest_root n * largest_root n)) ≤ 1 * 1 :=
      Nat.mul_le_mul (by omega) (by omega)
    omega
  exact largest_root_squarefree_rem hn hlr hk2 ⟨1, by omega⟩

theorem rem_pos {n : ℕ} (hn : 0 < n) (hlr : 1 < largest_root n) :
    0 < n / (largest_root n * largest_root n) := by
  have hd : largest_root n * largest_root n ∣ n :=
    ((largest_root_spec n).resolve_left (by omega)).2
  exact Nat.div_pos (Nat.le_of_dvd hn hd) (by positivity)

theorem rem_ne_one {n : ℕ} (hn : 0 < n) (hlr : 1 < largest_root n)
    (hnsq : ¬ Nat.sqrt n * Nat.sqrt n = n) :
    n / (largest_root n * largest_root n) ≠ 1 := by
  intro h1
  set lr := largest_root n with hlrdef
  have hd : lr * lr ∣ n := ((largest_root_spec n).resolve_left (by omega)).2
  obtain ⟨c, hc⟩ := hd
  have hlp : 0 < lr := by omega
  have hpos : 0 < lr * lr := by positivity
  have hcq : n / (lr * lr) = c := by
    rw [hc]
    exact Nat.mul_div_cancel_left c hpos
  have hc1 : c = 1 := by rw [hcq] at h1; exact h1
  apply hnsq
  have hnn : n = lr * lr := by rw [hc, hc1, Nat.mul_one]
  rw [hnn, Nat.sqrt_eq]

/-- `ULONG_MAX = 2^64 - 1` is not a perfect square (its square root is
pinched between `2^32 - 1` and `2^32`). -/
theorem ulong_max_not_square :
    ¬ Nat.sqrt (2 ^ 64 - 1) * Nat.sqrt (2 ^ 64 - 1) = 2 ^ 64 - 1 := by
  intro h
  rcases le_or_lt (Nat.sqrt (2 ^ 64 - 1)) (2 ^ 32 - 1) with hk | hk
  · have hb : Nat.sqrt (2 ^ 64 - 1) * Nat.sqrt (2 ^ 64 - 1) ≤
        (2 ^ 32 - 1) * (2 ^ 32 - 1) := Nat.mul_le_mul hk hk
    omega
  · have h32 : 2 ^ 32 ≤ Nat.sqrt (2 ^ 64 - 1) := by omega
    have hb : 2 ^ 32 * 2 ^ 32 ≤
        Nat.sqrt (2 ^ 64 - 1) * Nat.sqrt (2 ^ 64 - 1) := Nat.mul_le_mul h32 h32
    omega

theorem getUi_le (q : ℚ) : getUi q ≤ 2 ^ 64 - 1 := by
  show (if rndHalfEven q < 0 then (0 : ℕ)
    else min (rndHalfEven q).toNat (2 ^ 64 - 1)) ≤ 2 ^ 64 - 1
  split
  · omega
  · omega

/-- When the integral value is not a perfect square, neither is its
`mpfr_get_ui` image (equal below the clamp, and `ULONG_MAX` above it). -/
theorem getUi_not_sq {q : ℚ} (hden : q.den = 1) (hsq : sqrtIsInt q = false)
    (h1 : 1 < getUi q) :
    ¬ Nat.sqrt (getUi q) * Nat.sqrt (getUi q) = getUi q := by
  have hget : getUi q = if rndHalfEven q < 0 then 0
      else min (rndHalfEven q).toNat (2 ^ 64 - 1) := rfl
  rw [rndHalfEven_int hden] at hget
  by_cases hneg : q.num < 0
  · rw [if_pos hneg] at hget
    omega
  · rw [if_neg hneg] at hget
    rcases le_or_lt q.num.toNat (2 ^ 64 - 1) with hle | hgt
    · have : getUi q = q.num.toNat := by omega
      rw [this]
      simp only [sqrtIsInt, Bool.and_eq_false_iff, decide_eq_false_iff_not] at hsq
      rcases hsq with h | h
      · rcases h with h | h
        · exact absurd hden h
        · omega
      · exact h
    · have : getUi q = 2 ^ 64 - 1 := by omega
      rw [this]
      exact ulong_max_not_square

/-- The inner radicand produced by the sqrt-factorisation rule contains no
further simplification: it is `≥ 2`, squarefree, and not a perfect
square. -/
theorem sqrt_rules_none_of_rem {n : ℕ} (hn : 1 < n) (hnM : n ≤ 2 ^ 64 - 1)
    (hlr : 1 < largest_root n)
    (hnsq : ¬ Nat.sqrt n * Nat.sqrt n = n) :
    simplify_function_rules .fsqrt
      (.num ((n / (largest_root n * largest_root n) : ℕ) : ℚ) true) = none := by
  have hpos : 0 < n / (largest_root n * largest_root n) := rem_pos (by omega) hlr
  have hne1 : n / (largest_root n * largest_root n) ≠ 1 :=
    rem_ne_one (by omega) hlr hnsq
  have h2 : 2 ≤ n / (largest_root n * largest_root n) := by omega
  have hremM : n / (largest_root n * largest_root n) ≤ 2 ^ 64 - 1 :=
    le_trans (Nat.div_le_self _ _) hnM
  have hrnsq : ¬ Nat.sqrt (n / (largest_root n * largest_root n)) *
      Nat.sqrt (n / (largest_root n * largest_root n)) =
      n / (largest_root n * largest_root n) :=
    rem_not_square (by omega) hlr (by omega)
  simp only [simplify_function_rules, symbolic_is_zero, symbolic_is_one]
  rw [if_neg (by simp [Nat.cast_eq_zero]; omega)]
  rw [if_neg (by simp [Nat.cast_eq_one]; omega)]
  have hsqf : sqrtIsInt ((n / (largest_root n * largest_root n) : ℕ) : ℚ) = false := by
    simp only [sqrtIsInt, Rat.den_natCast, Rat.num_natCast, Int.toNat_natCast]
    simp [hrnsq]
  rw [hsqf]
  simp only [Bool.false_eq_true, if_false]
  have hgu : getUi ((n / (largest_root n * largest_root n) : ℕ) : ℚ) =
      n / (largest_root n * largest_root n) := by
    rw [getUi_int (Rat.den_natCast _)
      (by rw [Rat.num_natCast]; exact Int.natCast_nonneg _)]
    simp only [Rat.num_natCast, Int.toNat_natCast]
    omega
  rw [hgu]
  rw [if_pos (by omega)]
  have hlone : largest_root (n / (largest_root n * largest_root n)) = 1 :=
    largest_root_eq_one (fun j hj hd =>
      @largest_root_squarefree_rem n (by omega) hlr j hj hd)
  rw [hlone]
  rw [if_neg (by omega)]

/-- The `a × √b` node produced by the sqrt-factorisation rule is a fixed
point of `symbolic_simplify_binop`. -/
theorem star_num_sqrt_fix {lr rem : ℕ} (h2 : 2 ≤ lr) :
    symbolic_simplify_binop .star (.num ((lr : ℕ) : ℚ) true)
      (.call1 .fsqrt (.num ((rem : ℕ) : ℚ) true)) =
    .binop .star (.num ((lr : ℕ) : ℚ) true)
      (.call1 .fsqrt (.num ((rem : ℕ) : ℚ) true)) := by
  have hcmp : node_compare (.num ((lr : ℕ) : ℚ) true)
      (.call1 .fsqrt (.num ((rem : ℕ) : ℚ) true)) = 0 - 3 := rfl
  rw [symbolic_simplify_binop]
  rw [dif_neg (by rw [hcmp]; omega)]
  simp only [simplify_binop_rules, symbolic_is_zero, symbolic_is_one,
    int_pair, sqrt_arg]
  rw [if_neg (by simp [Nat.cast_eq_zero]; omega)]
  rw [if_neg (by simp)]
  rw [if_neg (by simp [Nat.cast_eq_one]; omega)]

/-- The result of the sqrt-factorisation rule is well formed and
hereditarily simplified. -/
theorem sqrt_factor_good {v : ℚ} (hden : v.den = 1) (hsqf : sqrtIsInt v = false)
    (hn : 1 < getUi v) (hlr : 1 < largest_root (getUi v)) :
    numOKb (.binop .star (.num ((largest_root (getUi v) : ℕ) : ℚ) true)
      (.call1 .fsqrt
        (.num ((getUi v / (largest_root (getUi v) * largest_root (getUi v)) : ℕ) : ℚ)
          true))) = true ∧
    HSb (.binop .star (.num ((largest_root (getUi v) : ℕ) : ℚ) true)
      (.call1 .fsqrt
        (.num ((getUi v / (largest_root (getUi v) * largest_root (getUi v)) : ℕ) : ℚ)
          true))) = true := by
  have hnsq := getUi_not_sq hden hsqf hn
  have hnone := sqrt_rules_none_of_rem hn (getUi_le v) hlr hnsq
  have hfix := @star_num_sqrt_fix (largest_root (getUi v))
    (getUi v / (largest_root (getUi v) * largest_root (getUi v)))
    (by omega)
  constructor
  · simp [numOKb, Rat.den_natCast]
  · simp only [HSb, hfix, hnone, Bool.and_eq_true, decide_eq_true_eq]
    simp

/-- Every tree produced by a firing `simplify_function_rules` rule is well
formed and hereditarily simplified. -/
theorem fun_rules_good {f : Func} {arg t : AST} (hOK : numOKb arg = true)
    (h : simplify_function_rules f arg = some t) :
    numOKb t = true ∧ HSb t = true := by
  cases f with
  | fsin =>
    simp only [simplify_function_rules] at h
    repeat' split at h
    all_goals first
      | exact Option.noConfusion h
      | (cases h; exact ⟨by decide, by decide⟩)
  | fcos =>
    simp only [simplify_function_rules] at h
    repeat' split at h
    all_goals first
      | exact Option.noConfusion h
      | (cases h; exact ⟨by decide, by decide⟩)
  | ftan =>
    simp only [simplify_function_rules] at h
    repeat' split at h
    all_goals first
      | exact Option.noConfusion h
      | (cases h; exact ⟨by decide, by decide⟩)
  | flog =>
    simp only [simplify_function_rules] at h
    repeat' split at h
    all_goals first
      | exact Option.noConfusion h
      | (cases h; exact ⟨by decide, by decide⟩)
  | flog10 =>
    simp only [simplify_function_rules] at h
    repeat' split at h
    all_goals first
      | exact Option.noConfusion h
      | (cases h; exact ⟨by decide, by decide⟩)
  | fexp =>
    simp only [simplify_function_rules] at h
    repeat' split at h
    all_goals first
      | exact Option.noConfusion h
      | (cases h; exact ⟨by decide, by decide⟩)
  | fabs =>
    simp only [simplify_function_rules] at h
    repeat' split at h
    all_goals first
      | exact Option.noConfusion h
      | (cases h; exact ⟨by decide, by decide⟩)
      | (cases h; exact ⟨hOK, rfl⟩)
      | (cases h; exact ⟨by simp [numOKb, Rat.den_intCast], rfl⟩)
  | fsqrt =>
    simp only [simplify_function_rules] at h
    split at h
    · cases h
      exact ⟨by decide, by decide⟩
    · split at h
      · cases h
        exact ⟨by decide, by decide⟩
      · split at h
        · simp only [numOKb, Bool.not_true, Bool.false_or, beq_iff_eq] at hOK
          split at h
          · cases h
            exact ⟨by simp [numOKb, Rat.den_natCast], rfl⟩
          · rename_i hsqF
            split at h
            · rename_i hgt1
              split at h
              · rename_i hlr1
                cases h
                exact sqrt_factor_good hOK
                  (Bool.eq_false_iff.mpr hsqF) hgt1 hlr1
              · exact Option.noConfusion h
            · exact Option.noConfusion h
        · exact Option.noConfusion h
  | fasin =>
    simp only [simplify_function_rules] at h
    exact Option.noConfusion h
  | facos =>
    simp only [simplify_function_rules] at h
    exact Option.noConfusion h
  | fatan =>
    simp only [simplify_function_rules] at h
    exact Option.noConfusion h
  | fatan2 =>
    simp only [simplify_function_rules] at h
    exact Option.noConfusion h
  | fsinh =>
    simp only [simplify_function_rules] at h
    exact Option.noConfusion h
  | fcosh =>
    simp only [simplify_function_rules] at h
    exact Option.noConfusion h
  | ftanh =>
    simp only [simplify_function_rules] at h
    exact Option.noConfusion h
  | fasinh =>
    simp only [simplify_function_rules] at h
    exact Option.noConfusion h
  | facosh =>
    simp only [simplify_function_rules] at h
    exact Option.noConfusion h
  | fatanh =>
    simp only [simplify_function_rules] at h
    exact Option.noConfusion h
  | ffloor =>
    simp only [simplify_function_rules] at h
    exact Option.noConfusion h
  | fceil =>
    simp only [simplify_function_rules] at h
    exact Option.noConfusion h
  | fpow =>
    simp only [simplify_function_rules] at h
    exact Option.noConfusion h

/-- `symbolic_simplify_function` on one argument preserves
well-formedness and hereditary simplification. -/
theorem simplify_function1_good {f : Func} {a : AST}
    (hOK : numOKb a = true) (hHS : HSb a = true) :
    numOKb (symbolic_simplify_function1 f a) = true ∧
      HSb (symbolic_simplify_function1 f a) = true := by
  unfold symbolic_simplify_function1
  cases hr : simplify_function_rules f a with
  | some t => exact fun_rules_good hOK hr
  | none =>
    constructor
    · simpa [numOKb] using hOK
    · simp [HSb, hHS, hr]

/-- `symbolic_simplify_function` on two arguments (the rule switch only
inspects the first). -/
theorem simplify_function2_good {f : Func} {a b : AST}
    (hOKa : numOKb a = true) (hHSa : HSb a = true)
    (hOKb : numOKb b = true) (hHSb : HSb b = true) :
    numOKb (symbolic_simplify_function2 f a b) = true ∧
      HSb (symbolic_simplify_function2 f a b) = true := by
  unfold symbolic_simplify_function2
  cases hr : simplify_function_rules f a with
  | some t => exact fun_rules_good hOKa hr
  | none =>
    constructor
    · simp [numOKb, hOKa, hOKb]
    · simp [HSb, hHSa, hHSb, hr]

/-- A tree is good when its integer-flagged numbers are integral and it is
hereditarily simplified. -/
def Good (t : AST) : Prop := numOKb t = true ∧ HSb t = true

/-- Canonically ordered operands: for a commutative operator the pair is
already in non-decreasing `node_compare` order (the wrapper's swap
establishes this before the rules run). -/
def canonical (op : BinOp) (l r : AST) : Prop :=
  is_commutative op = true → node_compare l r ≤ 0

theorem Good_intCast (z : ℤ) : Good (.num ((z : ℤ) : ℚ) true) :=
  ⟨by simp [numOKb, Rat.den_intCast], rfl⟩

theorem Good_binop_parts {op : BinOp} {l r : AST}
    (h : Good (.binop op l r)) : Good l ∧ Good r := by
  obtain ⟨hok, hhs⟩ := h
  simp only [numOKb, HSb, Bool.and_eq_true] at hok hhs
  exact ⟨⟨hok.1, hhs.1.1⟩, ⟨hok.2, hhs.1.2⟩⟩

theorem Good_call1_parts {f : Func} {a : AST}
    (h : Good (.call1 f a)) : Good a := by
  obtain ⟨hok, hhs⟩ := h
  simp only [numOKb, HSb, Bool.and_eq_true] at hok hhs
  exact ⟨hok, hhs.1⟩

theorem Good_call2_parts {f : Func} {a b : AST}
    (h : Good (.call2 f a b)) : Good a ∧ Good b := by
  obtain ⟨hok, hhs⟩ := h
  simp only [numOKb, HSb, Bool.and_eq_true] at hok hhs
  exact ⟨⟨hok.1, hhs.1.1⟩, ⟨hok.2, hhs.1.2⟩⟩

theorem Good_binop_of {op : BinOp} {l r : AST} (hl : Good l) (hr : Good r)
    (hfix : symbolic_simplify_binop op l r = .binop op l r) :
    Good (.binop op l r) :=
  ⟨by simp [numOKb, hl.1, hr.1],
   by simp [HSb, hl.2, hr.2, hfix]⟩

theorem plus_collect_l_eq {l r b y : AST}
    (h : plus_collect_l l r = some (b, y)) : l = .binop .star b y := by
  unfold plus_collect_l at h
  split at h
  all_goals try exact Option.noConfusion h
  split at h
  · cases h
    rfl
  · exact Option.noConfusion h

theorem plus_collect_r_eq {l r b y : AST}
    (h : plus_collect_r l r = some (b, y)) : r = .binop .star b y := by
  unfold plus_collect_r at h
  split at h
  all_goals try exact Option.noConfusion h
  split at h
  · cases h
    rfl
  · exact Option.noConfusion h

theorem plus_collect_lr_eq {l r a b x : AST}
    (h : plus_collect_lr l r = some (a, b, x)) :
    ∃ y, l = .binop .star a x ∧ r = .binop .star b y := by
  unfold plus_collect_lr at h
  split at h
  all_goals try exact Option.noConfusion h
  next la lx rb ry =>
    split at h
    · cases h
      exact ⟨ry, rfl, rfl⟩
    · exact Option.noConfusion h

theorem slash_cancel_num_parts {l r t : AST}
    (h : slash_cancel_num l r = some t) :
    ∃ a b, l = .binop .star a b ∧ (t = a ∨ t = b) := by
  unfold slash_cancel_num at h
  split at h
  all_goals try exact Option.noConfusion h
  split at h
  · cases h
    exact ⟨_, _, rfl, Or.inl rfl⟩
  · split at h
    · cases h
      exact ⟨_, _, rfl, Or.inr rfl⟩
    · exact Option.noConfusion h

theorem slash_cancel_den_parts {l r t : AST}
    (h : slash_cancel_den l r = some t) :
    ∃ a b, r = .binop .star a b ∧ (t = a ∨ t = b) := by
  unfold slash_cancel_den at h
  split at h
  all_goals try exact Option.noConfusion h
  split at h
  · cases h
    exact ⟨_, _, rfl, Or.inl rfl⟩
  · split at h
    · cases h
      exact ⟨_, _, rfl, Or.inr rfl⟩
    · exact Option.noConfusion h

theorem plus_operands_eq {l a b : AST}
    (h : plus_operands l = some (a, b)) : l = .binop .plus a b := by
  unfold plus_operands at h
  split at h
  · cases h
    rfl
  · exact Option.noConfusion h

theorem minus_operands_eq {l a b : AST}
    (h : minus_operands l = some (a, b)) : l = .binop .minus a b := by
  unfold minus_operands at h
  split at h
  · cases h
    rfl
  · exact Option.noConfusion h

theorem sqrt_arg_cases {t a : AST} (h : sqrt_arg t = some a) :
    t = .call1 .fsqrt a ∨ ∃ c, t = .call2 .fsqrt a c := by
  unfold sqrt_arg at h
  split at h
  · cases h
    exact Or.inl rfl
  · cases h
    exact Or.inr ⟨_, rfl⟩
  · exact Option.noConfusion h

theorem sqrt_arg_good {t a : AST} (hg : Good t) (h : sqrt_arg t = some a) :
    Good a := by
  rcases sqrt_arg_cases h with rfl | ⟨c, rfl⟩
  · exact Good_call1_parts hg
  · exact (Good_call2_parts hg).1

theorem int_div_exact_den {l r : AST} {q : ℚ}
    (h : int_div_exact l r = some q) : q.den = 1 := by
  unfold int_div_exact at h
  split at h
  all_goals try exact Option.noConfusion h
  split at h
  · exact Option.noConfusion h
  · split at h
    · cases h
      assumption
    · exact Option.noConfusion h

/-- `symbolic_simplify_binop` preserves well-formedness and produces a
hereditarily simplified tree (on canonical rule entry).  This is the core
of the idempotence argument: each rule's output is itself a fixed point of
simplification. -/
theorem simplify_binop_good :
    ∀ (op : BinOp) (l r : AST), Good l → Good r →
      Good (symbolic_simplify_binop op l r) := by
  apply symbolic_simplify_binop.induct
    (fun op l r => Good l → Good r → Good (symbolic_simplify_binop op l r))
    (fun op l r => Good l → Good r → canonical op l r →
      Good (simplify_binop_rules op l r))
  -- wrapper, swap branch
  · intro op l r h IH Gl Gr
    rw [symbolic_simplify_binop, dif_pos h]
    have hcan : canonical op r l := by
      intro hc
      rw [node_compare_antisymm l r]
      omega
    exact IH Gr Gl hcan
  -- wrapper, no-swap branch
  · intro op l r h IH Gl Gr
    rw [symbolic_simplify_binop, dif_neg h]
    have hcan : canonical op l r := by
      intro hc
      by_contra hgt
      exact h ⟨hc, by omega⟩
    exact IH Gl Gr hcan
  -- plus: x + 0 → x
  · intro l r h1 Gl Gr hcan
    have hres : simplify_binop_rules .plus l r = l := by
      simp [simplify_binop_rules, h1]
    rw [hres]
    exact Gl
  -- plus: 0 + x → x
  · intro l r h1 h2 Gl Gr hcan
    have hres : simplify_binop_rules .plus l r = r := by
      simp [simplify_binop_rules, h1, h2]
    rw [hres]
    exact Gr
  -- plus: integer fold
  · intro l r h1 h2 lv rv hm Gl Gr hcan
    have hres : simplify_binop_rules .plus l r =
        .num ((rndHalfEven (lv + rv) : ℤ) : ℚ) true := by
      simp [simplify_binop_rules, h1, h2, hm]
    rw [hres]
    exact Good_intCast _
  -- plus: x + x → 2 × x
  · intro l r h1 h2 h3 h4 IH Gl Gr hcan
    have hres : simplify_binop_rules .plus l r =
        symbolic_simplify_binop .star (.num 2 true) l := by
      simp [simplify_binop_rules, h1, h2, h3, h4]
    rw [hres]
    exact IH ⟨by decide, rfl⟩ Gl
  -- plus: (a×x) + x → (a+1)×x
  · intro l r h1 h2 h3 h4 b y hm IH1 IH2 Gl Gr hcan
    have hres : simplify_binop_rules .plus l r =
        symbolic_simplify_binop .star
          (symbolic_simplify_binop .plus b (.num 1 true)) y := by
      simp [simplify_binop_rules, h1, h2, h3, h4]
      split
      · rename_i a2 x2 hm2
        rw [hm] at hm2
        cases hm2
        rfl
      · rename_i hm2
        rw [hm] at hm2
        exact Option.noConfusion hm2
    rw [hres]
    obtain rfl := plus_collect_l_eq hm
    obtain ⟨Gb, Gy⟩ := Good_binop_parts Gl
    exact IH2 (IH1 Gb ⟨by decide, rfl⟩) Gy
  -- plus: x + (b×x) → (1+b)×x
  · intro l r h1 h2 h3 h4 h5 b y hm IH1 IH2 Gl Gr hcan
    have hres : simplify_binop_rules .plus l r =
        symbolic_simplify_binop .star
          (symbolic_simplify_binop .plus (.num 1 true) b) y := by
      simp [simplify_binop_rules, h1, h2, h3, h4]
      split
      · rename_i a2 x2 hm2
        rw [h5] at hm2
        exact Option.noConfusion hm2
      · split
        · rename_i b2 y2 hm2
          rw [hm] at hm2
          cases hm2
          rfl
        · rename_i hm2
          rw [hm] at hm2
          exact Option.noConfusion hm2
    rw [hres]
    obtain rfl := plus_collect_r_eq hm
    obtain ⟨Gb, Gy⟩ := Good_binop_parts Gr
    exact IH2 (IH1 ⟨by decide, rfl⟩ Gb) Gy
  -- plus: (a×x) + (b×x) → (a+b)×x
  · intro l r h1 h2 h3 h4 h5 h6 a b x hm IH1 IH2 Gl Gr hcan
    have hres : simplify_binop_rules .plus l r =
        symbolic_simplify_binop .star
          (symbolic_simplify_binop .plus a b) (symbolic_clone x) := by
      simp [simplify_binop_rules, h1, h2, h3, h4]
      split
      · rename_i a2 x2 hm2
        rw [h5] at hm2
        exact Option.noConfusion hm2
      · split
        · rename_i b2 y2 hm2
          rw [h6] at hm2
          exact Option.noConfusion hm2
        · split
          · rename_i a2 b2 x2 hm2
            rw [hm] at hm2
            cases hm2
            rfl
          · rename_i hm2
            rw [hm] at hm2
            exact Option.noConfusion hm2
    rw [hres]
    obtain ⟨y, rfl, rfl⟩ := plus_collect_lr_eq hm
    obtain ⟨Ga, Gx⟩ := Good_binop_parts Gl
    obtain ⟨Gb, Gy⟩ := Good_binop_parts Gr
    exact IH2 (IH1 Ga Gb) Gx
  -- plus: fall-through
  · intro l r h1 h2 h3 h4 h5 h6 h7 Gl Gr hcan
    have hnoswap : ¬ (is_commutative .plus = true ∧ 0 < node_compare l r) := by
      rintro ⟨hc, hgt⟩
      have := hcan hc
      omega
    have hres : simplify_binop_rules .plus l r = .binop .plus l r := by
      simp [simplify_binop_rules, h1, h2, h3, h4]
      split
      · rename_i a2 x2 hm2
        rw [h5] at hm2
        exact Option.noConfusion hm2
      · split
        · rename_i b2 y2 hm2
          rw [h6] at hm2
          exact Option.noConfusion hm2
        · split
          · rename_i a2 b2 x2 hm2
            rw [h7] at hm2
            exact Option.noConfusion hm2
          · rfl
    rw [hres]
    refine Good_binop_of Gl Gr ?_
    rw [symbolic_simplify_binop, dif_neg hnoswap, hres]
  -- minus: x - 0 → x
  · intro l r h1 Gl Gr hcan
    have hres : simplify_binop_rules .minus l r = l := by
      simp [simplify_binop_rules, h1]
    rw [hres]
    exact Gl
  -- minus: x - x → 0
  · intro l r h1 h2 Gl Gr hcan
    have hres : simplify_binop_rules .minus l r = .num 0 true := by
      simp [simplify_binop_rules, h1, h2]
    rw [hres]
    exact ⟨by decide, rfl⟩
  -- minus: fall-through
  · intro l r h1 h2 Gl Gr hcan
    have hnoswap : ¬ (is_commutative .minus = true ∧ 0 < node_compare l r) := by
      rintro ⟨hc, hgt⟩
      have := hcan hc
      omega
    have hres : simplify_binop_rules .minus l r = .binop .minus l r := by
      simp [simplify_binop_rules, h1, h2]
    rw [hres]
    refine Good_binop_of Gl Gr ?_
    rw [symbolic_simplify_binop, dif_neg hnoswap, hres]
  -- star: 0 × x, x × 0 → 0
  · intro l r h1 Gl Gr hcan
    have hres : simplify_binop_rules .star l r = .num 0 true := by
      simp [simplify_binop_rules, h1]
    rw [hres]
    exact ⟨by decide, rfl⟩
  -- star: x × 1 → x
  · intro l r h1 h2 Gl Gr hcan
    have hres : simplify_binop_rules .star l r = l := by
      simp [simplify_binop_rules, h1, h2]
    rw [hres]
    exact Gl
  -- star: 1 × x → x
  · intro l r h1 h2 h3 Gl Gr hcan
    have hres : simplify_binop_rules .star l r = r := by
      simp [simplify_binop_rules, h1, h2, h3]
    rw [hres]
    exact Gr
  -- star: integer fold
  · intro l r h1 h2 h3 lv rv hm Gl Gr hcan
    have hres : simplify_binop_rules .star l r =
        .num ((rndHalfEven (lv * rv) : ℤ) : ℚ) true := by
      simp [simplify_binop_rules, h1, h2, h3, hm]
    rw [hres]
    exact Good_intCast _
  -- star: √a × √b → √(a×b)
  · intro l r h1 h2 h3 h4 a b hsl hsr IH Gl Gr hcan
    have hres : simplify_binop_rules .star l r =
        symbolic_simplify_function1 .fsqrt
          (symbolic_simplify_binop .star (symbolic_clone a)
            (symbolic_clone b)) := by
      simp [simplify_binop_rules, h1, h2, h3, h4]
      split
      · rename_i a2 b2 hsl2 hsr2
        rw [hsl] at hsl2
        rw [hsr] at hsr2
        cases hsl2
        cases hsr2
        rfl
      · rename_i hno2
        exact (hno2 _ _ hsl hsr).elim
    rw [hres]
    have Gp := IH (sqrt_arg_good Gl hsl) (sqrt_arg_good Gr hsr)
    exact simplify_function1_good Gp.1 Gp.2
  -- star: fall-through
  · intro l r h1 h2 h3 h4 hno Gl Gr hcan
    have hnoswap : ¬ (is_commutative .star = true ∧ 0 < node_compare l r) := by
      rintro ⟨hc, hgt⟩
      have := hcan hc
      omega
    have hres : simplify_binop_rules .star l r = .binop .star l r := by
      simp only [simplify_binop_rules]
      rw [if_neg h1, if_neg h2, if_neg h3, h4]
    rw [hres]
    refine Good_binop_of Gl Gr ?_
    rw [symbolic_simplify_binop, dif_neg hnoswap, hres]
  -- slash: x ÷ 0 → 0
  · intro l r h1 Gl Gr hcan
    have hres : simplify_binop_rules .slash l r = .num 0 true := by
      simp only [simplify_binop_rules]
      rw [if_pos h1]
    rw [hres]
    exact ⟨by decide, rfl⟩
  -- slash: x ÷ 1 → x
  · intro l r h1 h2 Gl Gr hcan
    have hres : simplify_binop_rules .slash l r = l := by
      simp only [simplify_binop_rules]
      rw [if_neg h1, if_pos h2]
    rw [hres]
    exact Gl
  -- slash: x ÷ x → 1
  · intro l r h1 h2 h3 Gl Gr hcan
    have hres : simplify_binop_rules .slash l r = .num 1 true := by
      simp only [simplify_binop_rules]
      rw [if_neg h1, if_neg h2, if_pos h3]
    rw [hres]
    exact ⟨by decide, rfl⟩
  -- slash: 0 ÷ x → 0
  · intro l r h1 h2 h3 h4 Gl Gr hcan
    have hres : simplify_binop_rules .slash l r = .num 0 true := by
      simp only [simplify_binop_rules]
      rw [if_neg h1, if_neg h2, if_neg h3, if_pos h4]
    rw [hres]
    exact ⟨by decide, rfl⟩
  -- slash: (a×b) ÷ c cancel
  · intro l r h1 h2 h3 h4 t hm Gl Gr hcan
    have hres : simplify_binop_rules .slash l r = t := by
      simp only [simplify_binop_rules]
      rw [if_neg h1, if_neg h2, if_neg h3, if_neg h4, hm]
    rw [hres]
    obtain ⟨a2, b2, rfl, ht⟩ := slash_cancel_num_parts hm
    obtain ⟨Ga, Gb⟩ := Good_binop_parts Gl
    rcases ht with rfl | rfl
    · exact Ga
    · exact Gb
  -- slash: c ÷ (a×b) cancel → 1 ÷ rest
  · intro l r h1 h2 h3 h4 h5 b hm IH Gl Gr hcan
    have hres : simplify_binop_rules .slash l r =
        symbolic_simplify_binop .slash (.num 1 true) b := by
      simp only [simplify_binop_rules]
      rw [if_neg h1, if_neg h2, if_neg h3, if_neg h4, h5]
      dsimp only
      split
      · rename_i t2 hm2
        rw [hm] at hm2
        cases hm2
        rfl
      · rename_i hm2
        rw [hm] at hm2
        exact Option.noConfusion hm2
    rw [hres]
    have Gb : Good b := by
      obtain ⟨a2, b2, rfl, ht⟩ := slash_cancel_den_parts hm
      obtain ⟨G1, G2⟩ := Good_binop_parts Gr
      rcases ht with rfl | rfl
      · exact G1
      · exact G2
    exact IH ⟨by decide, rfl⟩ Gb
  -- slash: (a+b) ÷ c distribute
  · intro l r h1 h2 h3 h4 h5 h6 b y hm IHc1 IHc2 IHp1 IHp2 IHsum Gl Gr hcan
    have hres : simplify_binop_rules .slash l r =
        symbolic_simplify_binop .plus
          (symbolic_simplify_binop .slash (symbolic_clone b)
            (symbolic_clone r))
          (symbolic_simplify_binop .slash (symbolic_clone y)
            (symbolic_clone r)) := by
      simp only [simplify_binop_rules]
      rw [if_neg h1, if_neg h2, if_neg h3, if_neg h4, h5]
      dsimp only
      split
      · rename_i t2 hm2
        rw [h6] at hm2
        exact Option.noConfusion hm2
      · split
        · rename_i b2 y2 hm2
          rw [hm] at hm2
          cases hm2
          rfl
        · rename_i hm2
          rw [hm] at hm2
          exact Option.noConfusion hm2
    rw [hres]
    obtain rfl := plus_operands_eq hm
    obtain ⟨Gb, Gy⟩ := Good_binop_parts Gl
    exact IHsum (IHc1 Gb Gr) (IHc2 Gy Gr)
  -- slash: (a-b) ÷ c distribute
  · intro l r h1 h2 h3 h4 h5 h6 h7 b y hm IHc1 IHc2 IHp1 IHp2 IHdiff Gl Gr hcan
    have hres : simplify_binop_rules .slash l r =
        symbolic_simplify_binop .minus
          (symbolic_simplify_binop .slash (symbolic_clone b)
            (symbolic_clone r))
          (symbolic_simplify_binop .slash (symbolic_clone y)
            (symbolic_clone r)) := by
      simp only [simplify_binop_rules]
      rw [if_neg h1, if_neg h2, if_neg h3, if_neg h4, h5]
      dsimp only
      split
      · rename_i t2 hm2
        rw [h6] at hm2
        exact Option.noConfusion hm2
      · split
        · rename_i b2 y2 hm2
          rw [h7] at hm2
          exact Option.noConfusion hm2
        · split
          · rename_i b2 y2 hm2
            rw [hm] at hm2
            cases hm2
            rfl
          · rename_i hm2
            rw [hm] at hm2
            exact Option.noConfusion hm2
    rw [hres]
    obtain rfl := minus_operands_eq hm
    obtain ⟨Gb, Gy⟩ := Good_binop_parts Gl
    exact IHdiff (IHc1 Gb Gr) (IHc2 Gy Gr)
  -- slash: exact integer division
  · intro l r h1 h2 h3 h4 h5 h6 h7 h8 q hm Gl Gr hcan
    have hres : simplify_binop_rules .slash l r = .num q true := by
      simp only [simplify_binop_rules]
      rw [if_neg h1, if_neg h2, if_neg h3, if_neg h4, h5]
      dsimp only
      split
      · rename_i t2 hm2
        rw [h6] at hm2
        exact Option.noConfusion hm2
      · split
        · rename_i b2 y2 hm2
          rw [h7] at hm2
          exact Option.noConfusion hm2
        · split
          · rename_i b2 y2 hm2
            rw [h8] at hm2
            exact Option.noConfusion hm2
          · rw [hm]
    rw [hres]
    exact ⟨by simp [numOKb, int_div_exact_den hm], rfl⟩
  -- slash: rationalise a ÷ √b
  · intro l r h1 h2 h3 h4 h5 h6 h7 h8 h9 b hm IH1 IHx IH3 Gl Gr hcan
    have hres : simplify_binop_rules .slash l r =
        symbolic_simplify_binop .slash
          (symbolic_simplify_binop .star l (symbolic_clone r))
          (symbolic_clone b) := by
      simp only [simplify_binop_rules]
      rw [if_neg h1, if_neg h2, if_neg h3, if_neg h4, h5]
      dsimp only
      split
      · rename_i t2 hm2
        rw [h6] at hm2
        exact Option.noConfusion hm2
      · split
        · rename_i b2 y2 hm2
          rw [h7] at hm2
          exact Option.noConfusion hm2
        · split
          · rename_i b2 y2 hm2
            rw [h8] at hm2
            exact Option.noConfusion hm2
          · rw [h9]
            dsimp only
            split
            · rename_i b2 hm2
              rw [hm] at hm2
              cases hm2
              rfl
            · rename_i hm2
              rw [hm] at hm2
              exact Option.noConfusion hm2
    rw [hres]
    exact IH3 (IH1 Gl Gr) (sqrt_arg_good Gr hm)
  -- slash: fall-through
  · intro l r h1 h2 h3 h4 h5 h6 h7 h8 h9 h10 Gl Gr hcan
    have hnoswap : ¬ (is_commutative .slash = true ∧ 0 < node_compare l r) := by
      rintro ⟨hc, hgt⟩
      have := hcan hc
      omega
    have hres : simplify_binop_rules .slash l r = .binop .slash l r := by
      simp only [simplify_binop_rules]
      rw [if_neg h1, if_neg h2, if_neg h3, if_neg h4, h5]
      dsimp only
      split
      · rename_i t2 hm2
        rw [h6] at hm2
        exact Option.noConfusion hm2
      · split
        · rename_i b2 y2 hm2
          rw [h7] at hm2
          exact Option.noConfusion hm2
        · split
          · rename_i b2 y2 hm2
            rw [h8] at hm2
            exact Option.noConfusion hm2
          · rw [h9]
            dsimp only
            split
            · rename_i b2 hm2
              rw [h10] at hm2
              exact Option.noConfusion hm2
            · rfl
    rw [hres]
    refine Good_binop_of Gl Gr ?_
    rw [symbolic_simplify_binop, dif_neg hnoswap, hres]
  -- caret: x ^ 0 → 1
  · intro l r h1 Gl Gr hcan
    have hres : simplify_binop_rules .caret l r = .num 1 true := by
      simp [simplify_binop_rules, h1]
    rw [hres]
    exact ⟨by decide, rfl⟩
  -- caret: x ^ 1 → x
  · intro l r h1 h2 Gl Gr hcan
    have hres : simplify_binop_rules .caret l r = l := by
      simp [simplify_binop_rules, h1, h2]
    rw [hres]
    exact Gl
  -- caret: 0 ^ x → 0
  · intro l r h1 h2 h3 Gl Gr hcan
    have hres : simplify_binop_rules .caret l r = .num 0 true := by
      simp [simplify_binop_rules, h1, h2, h3]
    rw [hres]
    exact ⟨by decide, rfl⟩
  -- caret: 1 ^ x → 1
  · intro l r h1 h2 h3 h4 Gl Gr hcan
    have hres : simplify_binop_rules .caret l r = .num 1 true := by
      simp [simplify_binop_rules, h1, h2, h3, h4]
    rw [hres]
    exact ⟨by decide, rfl⟩
  -- caret: fall-through
  · intro l r h1 h2 h3 h4 Gl Gr hcan
    have hnoswap : ¬ (is_commutative .caret = true ∧ 0 < node_compare l r) := by
      rintro ⟨hc, hgt⟩
      have := hcan hc
      omega
    have hres : simplify_binop_rules .caret l r = .binop .caret l r := by
      simp [simplify_binop_rules, h1, h2, h3, h4]
    rw [hres]
    refine Good_binop_of Gl Gr ?_
    rw [symbolic_simplify_binop, dif_neg hnoswap, hres]
  -- comparison operators: no rules
  · intro l r op hp hm hs hsl hc Gl Gr hcan
    have hnoswap : ¬ (is_commutative op = true ∧ 0 < node_compare l r) := by
      rintro ⟨hcm, hgt⟩
      have := hcan hcm
      omega
    have hres : simplify_binop_rules op l r = .binop op l r := by
      cases op
      case plus => exact absurd rfl hp
      case minus => exact absurd rfl hm
      case star => exact absurd rfl hs
      case slash => exact absurd rfl hsl
      case caret => exact absurd rfl hc
      all_goals simp [simplify_binop_rules]
    rw [hres]
    refine Good_binop_of Gl Gr ?_
    rw [symbolic_simplify_binop, dif_neg hnoswap, hres]

/-- `symbolic_eval` turns any well-formed tree into a good (well-formed,
hereditarily simplified) tree. -/
theorem symbolic_eval_good : ∀ t : AST, numOKb t = true →
    Good (symbolic_eval t) := by
  intro t
  induction t with
  | num v bi =>
    intro h
    exact ⟨h, rfl⟩
  | constant n =>
    intro h
    exact ⟨rfl, rfl⟩
  | binop op l r ihl ihr =>
    intro h
    simp only [numOKb, Bool.and_eq_true] at h
    exact simplify_binop_good op _ _ (ihl h.1) (ihr h.2)
  | unary op x ihx =>
    intro h
    have hx := ihx (by simpa [numOKb] using h)
    refine ⟨?_, ?_⟩
    · simpa [symbolic_eval, symbolic_simplify_unary, numOKb] using hx.1
    · simpa [symbolic_eval, symbolic_simplify_unary, HSb] using hx.2
  | call1 f a iha =>
    intro h
    have ha := iha (by simpa [numOKb] using h)
    exact simplify_function1_good ha.1 ha.2
  | call2 f a b iha ihb =>
    intro h
    simp only [numOKb, Bool.and_eq_true] at h
    have ha := iha h.1
    have hb := ihb h.2
    exact simplify_function2_good ha.1 ha.2 hb.1 hb.2

/-- Idempotence of the simplifier on well-formed trees. -/
theorem symbolic_eval_idem {t : AST} (h : numOKb t = true) :
    symbolic_eval (symbolic_eval t) = symbolic_eval t :=
  HSb_fix (symbolic_eval_good t h).2

/-! ### Numbers produced by the parser are well formed -/

theorem splitAtExp_digits {s : List Char} (h : s.all Char.isDigit = true) :
    splitAtExp s = (s, []) := by
  induction s with
  | nil => rfl
  | cons c cs ih =>
    simp only [List.all_cons, Bool.and_eq_true] at h
    have hne : ¬ (c = 'e' ∨ c = 'E') := by
      rintro (rfl | rfl) <;> exact absurd h.1 (by decide)
    simp [splitAtExp, hne, ih h.2]

theorem splitAtDot_digits {s : List Char} (h : s.all Char.isDigit = true) :
    splitAtDot s = (s, []) := by
  induction s with
  | nil => rfl
  | cons c cs ih =>
    simp only [List.all_cons, Bool.and_eq_true] at h
    have hne : ¬ (c = '.') := by
      rintro rfl
      exact absurd h.1 (by decide)
    simp [splitAtDot, hne, ih h.2]

/-- A pure digit string denotes an integer. -/
theorem decValue_int_den (m : ℕ) : (decValue m 0 0).den = 1 := by
  show (Rat.divInt ((m * 10 ^ ((0 : ℤ) - ((0 : ℕ) : ℤ)).toNat : ℕ) : ℤ) 1).den = 1
  rw [Rat.divInt_one]
  exact Rat.den_intCast _

/-- A pure digit string denotes an integer. -/
theorem parseDecimal_digits_den {s : List Char}
    (h : s.all Char.isDigit = true) : (parseDecimal s).den = 1 := by
  unfold parseDecimal
  rw [splitAtExp_digits h]
  dsimp only
  rw [splitAtDot_digits h]
  exact decValue_int_den _

/-- The integer/fraction scan preserves digit-only buffers while no
decimal point has been consumed. -/
theorem lex_number_scan_fuel_digits :
    ∀ (fuel : ℕ) (l : Lexer) (buf : List Char) (hasDot : Bool) (digits : ℕ)
      (l' : Lexer) (buf' : List Char) (hasDot' : Bool) (digits' : ℕ),
      lex_number_scan_fuel fuel l buf hasDot digits =
        (l', some (buf', hasDot', digits')) →
      (hasDot = false → buf.all Char.isDigit = true) →
      hasDot' = false → buf'.all Char.isDigit = true := by
  intro fuel
  induction fuel with
  | zero =>
    intro l buf hasDot digits l' buf' hasDot' digits' h hbuf hdot
    simp only [lex_number_scan_fuel] at h
    cases h
    exact hbuf hdot
  | succ fuel ih =>
    intro l buf hasDot digits l' buf' hasDot' digits' h hbuf hdot
    simp only [lex_number_scan_fuel] at h
    split at h
    · rename_i hcond
      split at h
      · rename_i hdotc
        split at h
        · simp at h
        · split at h
          · simp at h
          · exact ih _ _ _ _ _ _ _ _ h
              (by intro hfalse; exact absurd hfalse (by simp)) hdot
      · rename_i hdotc
        refine ih _ _ _ _ _ _ _ _ h ?_ hdot
        intro hfd
        have hc : l.currentChar.isDigit = true := by
          simp only [Bool.and_eq_true, Bool.or_eq_true] at hcond
          rcases hcond.1.1 with hd | he
          · exact hd
          · exact absurd (by simpa using he) hdotc
        simp [List.all_append, hbuf hfd, hc]
    · cases h
      exact hbuf hdot

/-- `finishNumber` yields a `TOKEN_INT` only on the non-dot, non-exponent
path, preserving the scanned buffer. -/
theorem finishNumber_tint {l l' : Lexer} {buf : List Char} {d : Bool} {s : String}
    (h : lexer_lex_number.finishNumber l buf d = (.tint s, l')) :
    d = false ∧ s = String.mk buf := by
  unfold lexer_lex_number.finishNumber at h
  dsimp only at h
  split at h
  · split at h <;> simp at h
  · split at h
    · simp at h
    · simp only [Prod.mk.injEq, Token.tint.injEq] at h
      rename_i hd _
      exact ⟨by simpa using hd, h.1.symm⟩

/-- A `TOKEN_INT` produced by `lexer_lex_number` carries a pure digit
string, hence an integral value. -/
theorem lexer_lex_number_tint {l l' : Lexer} {s : String}
    (h : lexer_lex_number l = (.tint s, l')) :
    (parseDecimal s.data).den = 1 := by
  unfold lexer_lex_number at h
  split at h
  · simp at h
  · split at h
    · simp at h
    · rename_i hscan
      split at h
      · simp at h
      · dsimp only at h
        split at h
        · split at h
          · simp at h
          · split at h
            · simp at h
            · split at h
              · simp at h
              · exact absurd (finishNumber_tint h).1 (by simp)
        · obtain ⟨hd, rfl⟩ := finishNumber_tint h
          show (parseDecimal (String.mk _).data).den = 1
          refine parseDecimal_digits_den ?_
          refine lex_number_scan_fuel_digits _ _ _ _ _ _ _ _ _ hscan
            (by intro hh; rfl) hd

/-- Any `TOKEN_INT` handed out by `lexer_get_next_token` carries a pure
digit string: only `lexer_lex_number` can produce it, and only on its
integer path. -/
theorem lexer_get_next_token_tint {l l' : Lexer} {s : String}
    (h : lexer_get_next_token l = (.tint s, l')) :
    (parseDecimal s.data).den = 1 := by
  unfold lexer_get_next_token at h
  dsimp only at h
  set w := lexer_skip_whitespace l with hw
  by_cases c0 : w.currentChar = '\x00'
  · rw [if_pos c0] at h; simp at h
  rw [if_neg c0] at h
  by_cases c1 : w.currentChar.isDigit = true
  · rw [if_pos c1] at h; exact lexer_lex_number_tint h
  rw [if_neg c1] at h
  by_cases c2 : w.currentChar = '.'
  · rw [if_pos c2] at h
    by_cases c2a : (lexer_peek w).isDigit = true
    · rw [if_pos c2a] at h; exact lexer_lex_number_tint h
    · rw [if_neg c2a] at h; simp at h
  rw [if_neg c2] at h
  by_cases c3 : (w.currentChar.isAlpha || decide (w.currentChar = '_')) = true
  · rw [if_pos c3] at h
    unfold lexer_lex_identifier at h
    dsimp only at h
    split at h <;> simp at h
  rw [if_neg c3] at h
  by_cases c4 : w.currentChar = '+'
  · rw [if_pos c4] at h; simp at h
  rw [if_neg c4] at h
  by_cases c5 : w.currentChar = '-'
  · rw [if_pos c5] at h; simp at h
  rw [if_neg c5] at h
  by_cases c6 : w.currentChar = '*'
  · rw [if_pos c6] at h; simp at h
  rw [if_neg c6] at h
  by_cases c7 : w.currentChar = '/'
  · rw [if_pos c7] at h; simp at h
  rw [if_neg c7] at h
  by_cases c8 : w.currentChar = '^'
  · rw [if_pos c8] at h; simp at h
  rw [if_neg c8] at h
  by_cases c9 : w.currentChar = '('
  · rw [if_pos c9] at h; simp at h
  rw [if_neg c9] at h
  by_cases c10 : w.currentChar = ')'
  · rw [if_pos c10] at h; simp at h
  rw [if_neg c10] at h
  by_cases c11 : w.currentChar = ','
  · rw [if_pos c11] at h; simp at h
  rw [if_neg c11] at h
  by_cases c12 : w.currentChar = '='
  · rw [if_pos c12] at h
    by_cases c12a : lexer_peek w = '='
    · rw [if_pos c12a] at h; simp at h
    · rw [if_neg c12a] at h; simp at h
  rw [if_neg c12] at h
  by_cases c13 : w.currentChar = '!'
  · rw [if_pos c13] at h
    by_cases c13a : lexer_peek w = '='
    · rw [if_pos c13a] at h; simp at h
    · rw [if_neg c13a] at h; simp at h
  rw [if_neg c13] at h
  by_cases c14 : w.currentChar = '<'
  · rw [if_pos c14] at h
    by_cases c14a : lexer_peek w = '='
    · rw [if_pos c14a] at h; simp at h
    · rw [if_neg c14a] at h; simp at h
  rw [if_neg c14] at h
  by_cases c15 : w.currentChar = '>'
  · rw [if_pos c15] at h
    by_cases c15a : lexer_peek w = '='
    · rw [if_pos c15a] at h; simp at h
    · rw [if_neg c15a] at h; simp at h
  rw [if_neg c15] at h
  simp at h

/-- A token is well formed when, if it is a `TOKEN_INT`, its preserved
literal denotes an integer. -/
def tokOK (tok : Token) : Prop :=
  ∀ s : String, tok = .tint s → (parseDecimal s.data).den = 1

/-- Parser invariant: the current token is well formed.  It holds after
`parser_init` and is reestablished by every `parser_advance`. -/
def PInv (p : Parser) : Prop := tokOK p.current_token

/-- A well-formed parse result: any produced tree has integral
integer-flagged numbers, and the resulting state keeps the invariant. -/
def POK (r : Option AST × Parser) : Prop :=
  (∀ t, r.1 = some t → numOKb t = true) ∧ PInv r.2

theorem lexer_get_next_token_tokOK (l : Lexer) :
    tokOK (lexer_get_next_token l).1 := by
  intro s hs
  rcases hr : lexer_get_next_token l with ⟨tok, l2⟩
  rw [hr] at hs
  dsimp at hs
  subst hs
  exact lexer_get_next_token_tint hr

theorem PInv_advance (p : Parser) : PInv (parser_advance p) :=
  lexer_get_next_token_tokOK p.lexer

theorem PInv_init (l : Lexer) : PInv (parser_init l) :=
  lexer_get_next_token_tokOK l

theorem POK_none {p : Parser} (hp : PInv p) : POK (none, p) :=
  ⟨fun _ ht => Option.noConfusion ht, hp⟩

theorem POK_of_left {left : AST} {p : Parser} (hleft : numOKb left = true)
    (hp : PInv p) : POK (some left, p) :=
  ⟨fun _ ht => Option.some.inj ht ▸ hleft, hp⟩

/-- Joint fuel induction over the thirteen mutually recursive parse
functions: starting from a well-formed parser state, every function
returns a well-formed result.  In particular every `AST_NUMBER` node with
`is_int = true` holds an integral value, because `parse_primary_impl`
builds such nodes only from `TOKEN_INT` literals. -/
theorem parser_numOK : ∀ fuel : ℕ,
    (∀ p, PInv p → POK (parser_parse_expression fuel p)) ∧
    (∀ p, PInv p → POK (parse_expression_impl fuel p)) ∧
    (∀ p, PInv p → POK (parse_comparison_impl fuel p)) ∧
    (∀ left p, numOKb left = true → PInv p →
      POK (parse_comparison_loop fuel left p)) ∧
    (∀ p, PInv p → POK (parse_term_impl fuel p)) ∧
    (∀ left p, numOKb left = true → PInv p →
      POK (parse_term_loop fuel left p)) ∧
    (∀ p, PInv p → POK (parse_factor_impl fuel p)) ∧
    (∀ left p count, numOKb left = true → PInv p →
      POK (parse_factor_loop fuel left p count)) ∧
    (∀ p, PInv p → POK (parse_power_impl fuel p)) ∧
    (∀ p, PInv p → POK (parse_unary_impl fuel p)) ∧
    (∀ p, PInv p → POK (parse_primary_impl fuel p)) ∧
    (∀ p f, PInv p → POK (parser_parse_function_call fuel p f)) ∧
    (∀ expected args p, args.all numOKb = true → PInv p →
      (∀ ts, (parse_fcall_args fuel expected args p).1 = some ts →
        ts.all numOKb = true) ∧
      PInv (parse_fcall_args fuel expected args p).2) := by
  intro fuel
  induction fuel with
  | zero =>
    refine ⟨?_, ?_, ?_, ?_, ?_, ?_, ?_, ?_, ?_, ?_, ?_, ?_, ?_⟩ <;>
      (intros
       exact ⟨fun _ ht => Option.noConfusion ht, by assumption⟩)
  | succ fuel ih =>
    obtain ⟨ihE, ihEI, ihC, ihCL, ihT, ihTL, ihF, ihFL, ihP, ihU, ihPr,
      ihFC, ihA⟩ := ih
    refine ⟨?_, ?_, ?_, ?_, ?_, ?_, ?_, ?_, ?_, ?_, ?_, ?_, ?_⟩
    -- parser_parse_expression
    · intro p hp
      simp only [parser_parse_expression]
      split
      · exact POK_none hp
      · exact ihEI { p with recursion_depth := p.recursion_depth + 1 } hp
    -- parse_expression_impl
    · intro p hp
      simp only [parse_expression_impl]
      exact ihC p hp
    -- parse_comparison_impl
    · intro p hp
      simp only [parse_comparison_impl]
      have h1 := ihT p hp
      rcases hr : parse_term_impl fuel p with ⟨ro, p2⟩
      rw [hr] at h1
      cases ro with
      | none => exact h1
      | some left =>
        dsimp only
        split
        · exact h1
        · exact ihCL left p2 (h1.1 left rfl) h1.2
    -- parse_comparison_loop
    · intro left p hleft hp
      simp only [parse_comparison_loop]
      split
      · have h1 := ihT (parser_advance p) (PInv_advance p)
        rcases hr : parse_term_impl fuel (parser_advance p) with ⟨ro, p2⟩
        rw [hr] at h1
        cases ro with
        | none => exact POK_none h1.2
        | some right =>
          dsimp only
          split
          · exact POK_none h1.2
          · exact ihCL (.binop (comparison_binop p.current_token) left right)
              p2 (by simp [numOKb, hleft, h1.1 right rfl]) h1.2
      · exact POK_of_left hleft hp
    -- parse_term_impl
    · intro p hp
      simp only [parse_term_impl]
      have h1 := ihF p hp
      rcases hr : parse_factor_impl fuel p with ⟨ro, p2⟩
      rw [hr] at h1
      cases ro with
      | none => exact h1
      | some left =>
        dsimp only
        split
        · exact h1
        · exact ihTL left p2 (h1.1 left rfl) h1.2
    -- parse_term_loop
    · intro left p hleft hp
      simp only [parse_term_loop]
      split
      · have h1 := ihF (parser_advance p) (PInv_advance p)
        rcases hr : parse_factor_impl fuel (parser_advance p) with ⟨ro, p2⟩
        rw [hr] at h1
        cases ro with
        | none => exact POK_none h1.2
        | some right =>
          dsimp only
          split
          · exact POK_none h1.2
          · exact ihTL (.binop (if p.current_token = .tplus then .plus
                else .minus) left right)
              p2 (by simp [numOKb, hleft, h1.1 right rfl]) h1.2
      · exact POK_of_left hleft hp
    -- parse_factor_impl
    · intro p hp
      simp only [parse_factor_impl]
      have h1 := ihP p hp
      rcases hr : parse_power_impl fuel p with ⟨ro, p2⟩
      rw [hr] at h1
      cases ro with
      | none => exact h1
      | some left =>
        dsimp only
        split
        · exact h1
        · exact ihFL left p2 0 (h1.1 left rfl) h1.2
    -- parse_factor_loop
    · intro left p count hleft hp
      simp only [parse_factor_loop]
      split
      · have hpi : PInv (if should_insert_multiplication p then p
            else parser_advance p) := by
          split
          · exact hp
          · exact PInv_advance p
        have h1 := ihP _ hpi
        rcases hr : parse_power_impl fuel
            (if should_insert_multiplication p then p else parser_advance p)
          with ⟨ro, p2⟩
        rw [hr] at h1
        cases ro with
        | none => exact POK_none h1.2
        | some right =>
          dsimp only
          split
          · exact POK_none h1.2
          · exact ihFL (.binop _ left right) p2 _
              (by simp [numOKb, hleft, h1.1 right rfl]) h1.2
      · split
        · exact POK_none hp
        · exact POK_of_left hleft hp
    -- parse_power_impl
    · intro p hp
      simp only [parse_power_impl]
      have h1 := ihU p hp
      rcases hr : parse_unary_impl fuel p with ⟨ro, p2⟩
      rw [hr] at h1
      cases ro with
      | none => exact h1
      | some left =>
        dsimp only
        split
        · exact h1
        · split
          · have h2 := ihP (parser_advance p2) (PInv_advance p2)
            rcases hr2 : parse_power_impl fuel (parser_advance p2)
              with ⟨ro2, p3⟩
            rw [hr2] at h2
            cases ro2 with
            | none => exact POK_none h2.2
            | some right =>
              dsimp only
              split
              · exact POK_none h2.2
              · exact POK_of_left
                  (by simp [numOKb, h1.1 left rfl, h2.1 right rfl]) h2.2
          · exact h1
    -- parse_unary_impl
    · intro p hp
      simp only [parse_unary_impl]
      split
      · have h1 := ihU (parser_advance p) (PInv_advance p)
        rcases hr : parse_unary_impl fuel (parser_advance p) with ⟨ro, p2⟩
        rw [hr] at h1
        cases ro with
        | none => exact POK_none h1.2
        | some operand =>
          dsimp only
          split
          · exact POK_none h1.2
          · exact POK_of_left (by simp [numOKb, h1.1 operand rfl]) h1.2
      · exact ihPr p hp
    -- parse_primary_impl
    · intro p hp
      simp only [parse_primary_impl]
      cases htok : p.current_token
      case tint s =>
        exact POK_of_left (by simp [numOKb, hp s htok]) (PInv_advance p)
      case tfloat s =>
        exact POK_of_left (by simp [numOKb]) (PInv_advance p)
      case tlparen =>
        have h1 := ihEI (parser_advance p) (PInv_advance p)
        rcases hr : parse_expression_impl fuel (parser_advance p)
          with ⟨ro, p2⟩
        rw [hr] at h1
        cases ro with
        | none => exact POK_none h1.2
        | some expr =>
          dsimp only
          split
          · exact POK_none h1.2
          · split
            · exact POK_none h1.2
            · exact POK_of_left (h1.1 expr rfl) (PInv_advance p2)
      case tconstant name =>
        exact POK_of_left (by simp [numOKb]) (PInv_advance p)
      case tfunc f =>
        exact ihFC (parser_advance p) f (PInv_advance p)
      all_goals exact POK_none (fun _ hs => Token.noConfusion hs)
    -- parser_parse_function_call
    · intro p f hp
      simp only [parser_parse_function_call]
      split
      · exact POK_none hp
      · have h1 := ihEI (parser_advance p) (PInv_advance p)
        rcases hr : parse_expression_impl fuel (parser_advance p)
          with ⟨ro, p2⟩
        rw [hr] at h1
        cases ro with
        | none => exact POK_none h1.2
        | some a0 =>
          dsimp only
          split
          · exact POK_none h1.2
          · have h2 := ihA (function_table_get_arg_count f) [a0] p2
              (by simp [h1.1 a0 rfl]) h1.2
            rcases hr2 : parse_fcall_args fuel
                (function_table_get_arg_count f) [a0] p2 with ⟨ao, p3⟩
            rw [hr2] at h2
            cases ao with
            | none => exact POK_none h2.2
            | some args =>
              dsimp only
              split
              · exact POK_none h2.2
              · split
                · exact POK_none h2.2
                · have hall := h2.1 args rfl
                  cases args with
                  | nil => exact POK_none (PInv_advance p3)
                  | cons a rest =>
                    cases rest with
                    | nil =>
                      refine POK_of_left ?_ (PInv_advance p3)
                      simp only [numOKb]
                      simpa using hall
                    | cons b rest2 =>
                      cases rest2 with
                      | nil =>
                        refine POK_of_left ?_ (PInv_advance p3)
                        simp at hall
                        simp [numOKb, hall.1, hall.2]
                      | cons c rest3 =>
                        exact POK_none (PInv_advance p3)
    -- parse_fcall_args
    · intro expected args p hargs hp
      simp only [parse_fcall_args]
      split
      · have h1 := ihEI (parser_advance p) (PInv_advance p)
        rcases hr : parse_expression_impl fuel (parser_advance p)
          with ⟨ro, p2⟩
        rw [hr] at h1
        cases ro with
        | none => exact ⟨fun _ hts => Option.noConfusion hts, h1.2⟩
        | some a =>
          dsimp only
          split
          · exact ⟨fun _ hts => Option.noConfusion hts, h1.2⟩
          · exact ihA expected (args ++ [a]) p2
              (by simp [List.all_append, hargs, h1.1 a rfl]) h1.2
      · exact ⟨fun _ hts => Option.some.inj hts ▸ hargs, hp⟩

/-- Any tree produced by a successful top-level parse is well formed:
every integer-flagged number node holds an integral value. -/
theorem parseString_numOK {s : String} {t : AST}
    (h : (parseString s).1 = some t) : numOKb t = true :=
  ((parser_numOK (parseFuel s)).1 (parser_init (lexer_init s.data))
    (PInv_init (lexer_init s.data))).1 t h

/-- C5: idempotence of the symbolic simplifier on every parseable
expression: a successful top-level parse yields a tree `t`, and
simplifying `t` twice gives a tree structurally equal (in the simplifier's
own `symbolic_equals` relation) to simplifying it once. -/
theorem simplify_idempotent_on_parsed {s : String} {t : AST}
    (h : (parseString s).1 = some t) :
    symbolic_equals (symbolic_eval (symbolic_eval t)) (symbolic_eval t)
      = true := by
  rw [symbolic_eval_idem (parseString_numOK h)]
  exact (symbolic_equals_true_iff _ _).mpr rfl

theorem simplify_idempotent_on_parsed_witness :
    (parseString "2+3").1
        = some (.binop .plus (.num 2 true) (.num 3 true)) ∧
    symbolic_equals
      (symbolic_eval (symbolic_eval
        (.binop .plus (.num 2 true) (.num 3 true))))
      (symbolic_eval (.binop .plus (.num 2 true) (.num 3 true))) = true :=
  ⟨by decide,
    @simplify_idempotent_on_parsed "2+3"
      (.binop .plus (.num 2 true) (.num 3 true)) (by decide)⟩

/-- C6 (counterexample): simplification does not always normalise the
operand order of a commutative operator up to structural equality.
`node_compare` ignores the `is_int` flag of a number node, so `2 + 2.0`
and `2.0 + 2` (equal values, different flags) are both already "in
order": neither is swapped, no rule fires, and the two simplified trees
are structurally different. -/
theorem simplify_commutative_counterexample :
    symbolic_equals
      (symbolic_eval (.binop .plus (.num 2 true) (.num 2 false)))
      (symbolic_eval (.binop .plus (.num 2 false) (.num 2 true)))
      = false := by
  have e1 : symbolic_eval (AST.binop .plus (.num 2 true) (.num 2 false))
      = .binop .plus (.num 2 true) (.num 2 false) := by
    simp only [symbolic_eval]
    rw [symbolic_simplify_binop, dif_neg (by decide), simplify_binop_rules]
    decide
  have e2 : symbolic_eval (AST.binop .plus (.num 2 false) (.num 2 true))
      = .binop .plus (.num 2 false) (.num 2 true) := by
    simp only [symbolic_eval]
    rw [symbolic_simplify_binop, dif_neg (by decide), simplify_binop_rules]
    decide
  rw [e1, e2]
  decide

/-- C6 (amended): the canonicalisation swap of
`symbolic_simplify_binop` does make a commutative operator insensitive to
operand order whenever `node_compare` separates the operands (or they are
identical); the original claim fails exactly when two distinct operands
compare equal, which `node_compare`'s flag-blind numeric comparison
allows. -/
theorem simplify_binop_commutes {op : BinOp} {a b : AST}
    (hop : is_commutative op = true)
    (h : node_compare a b ≠ 0 ∨ a = b) :
    symbolic_simplify_binop op a b = symbolic_simplify_binop op b a := by
  rcases h with h | rfl
  · have hab := node_compare_antisymm a b
    rcases lt_or_gt_of_ne h with hlt | hgt
    · have hno : ¬(is_commutative op = true ∧ 0 < node_compare a b) :=
        fun hc => absurd hc.2 (by omega)
      have hyes : is_commutative op = true ∧ 0 < node_compare b a :=
        ⟨hop, by omega⟩
      rw [symbolic_simplify_binop, symbolic_simplify_binop, dif_neg hno,
        dif_pos hyes]
    · have hyes : is_commutative op = true ∧ 0 < node_compare a b :=
        ⟨hop, hgt⟩
      have hno : ¬(is_commutative op = true ∧ 0 < node_compare b a) :=
        fun hc => absurd hc.2 (by omega)
      rw [symbolic_simplify_binop, symbolic_simplify_binop, dif_pos hyes,
        dif_neg hno]
  · rfl

theorem simplify_binop_commutes_witness :
    is_commutative .plus = true ∧
    node_compare (AST.num 1 true) (AST.num 2 true) ≠ 0 ∧
    symbolic_simplify_binop .plus (.num 1 true) (.num 2 true)
      = symbolic_simplify_binop .plus (.num 2 true) (.num 1 true) :=
  ⟨by decide, by decide,
    simplify_binop_commutes (by decide) (Or.inl (by decide))⟩

end CalcCore
